import Mathlib

set_option maxHeartbeats 1000000
set_option maxRecDepth 8000

/-! Shallow embedding of the mbus-mqtt-gateway core (src/mbus_handler.py,
src/mqtt_handler.py, src/persistence.py, src/main.py).

Conventions of the embedding:
- Python `time.time()` timestamps are modelled as `Int` values passed in
  explicitly by the caller (the code only compares and subtracts them).
- Blocking I/O (the serial bus, the paho client, sqlite) is modelled by
  outcome oracles passed as arguments: the pure state-transition logic of
  the handlers is translated literally from the source.
- Python dicts are association lists in insertion order (Python dicts
  preserve insertion order; updating an existing key keeps its position,
  a new key is appended). -/

/-! ## Circuit breaker (src/mbus_handler.py, class CircuitBreaker)

The Python field `state` holds one of the strings "closed", "open",
"half-open"; `opened` stands for "open" (a Lean keyword). -/

inductive BreakerState
  | closed
  | opened
  | halfOpen
deriving DecidableEq

structure CircuitBreaker where
  failure_threshold : Nat := 5
  timeout : Int := 300
  failures : Nat := 0
  last_failure_time : Int := 0
  state : BreakerState := .closed
deriving DecidableEq

/-- `CircuitBreaker.record_success`: `failures = 0`, `state = "closed"`. -/
def CircuitBreaker.record_success (cb : CircuitBreaker) : CircuitBreaker :=
  { cb with failures := 0, state := .closed }

/-- `CircuitBreaker.record_failure`: increment `failures`, stamp
`last_failure_time`, and open the circuit once `failures` reaches
`failure_threshold`. -/
def CircuitBreaker.record_failure (now : Int) (cb : CircuitBreaker) : CircuitBreaker :=
  let cb1 := { cb with failures := cb.failures + 1, last_failure_time := now }
  if cb1.failures ≥ cb1.failure_threshold then { cb1 with state := .opened } else cb1

/-- `CircuitBreaker.can_attempt`: returns the boolean result together with
the breaker state after the call (the Python method mutates `self`). -/
def CircuitBreaker.can_attempt (now : Int) (cb : CircuitBreaker) : Bool × CircuitBreaker :=
  match cb.state with
  | .closed => (true, cb)
  | .opened =>
      if now - cb.last_failure_time ≥ cb.timeout then
        (true, { cb with state := .halfOpen, failures := 0 })
      else
        (false, cb)
  | .halfOpen => (true, cb)

/-! ## M-Bus devices (src/mbus_handler.py, class MBusDevice / MBusHandler) -/

/-- A record value extracted from a device reply (numbers are idealised as
integers; C10 records why IEEE floats are left out of the model). -/
inductive PyValue
  | ofInt (n : Int)
  | ofStr (s : String)
deriving DecidableEq

structure RecordEntry where
  name : String
  value : PyValue
  unit : String
  function : Option String
deriving DecidableEq

structure MBusDevice where
  address : String
  name : String
  manufacturer : String := "Unknown"
  medium : String := "Unknown"
  identification : String := ""
  last_seen : Int := 0
  online : Bool := true
  consecutive_failures : Nat := 0
  records : List RecordEntry := []
deriving DecidableEq

def MBusDevice.mark_online (now : Int) (d : MBusDevice) : MBusDevice :=
  { d with online := true, consecutive_failures := 0, last_seen := now }

def MBusDevice.mark_failure (now : Int) (d : MBusDevice) : MBusDevice :=
  { d with consecutive_failures := d.consecutive_failures + 1, last_seen := now }

def MBusDevice.mark_offline (now : Int) (d : MBusDevice) : MBusDevice :=
  { d with online := false, last_seen := now }

/-- Lookup in an insertion-ordered Python dict. -/
def dictGet {α : Type} : String → List (String × α) → Option α
  | _, [] => none
  | k, p :: t => if p.1 = k then some p.2 else dictGet k t

/-- Assignment in an insertion-ordered Python dict: an existing key keeps
its position, a new key is appended at the end. -/
def dictSet {α : Type} (k : String) (v : α) : List (String × α) → List (String × α)
  | [] => [(k, v)]
  | p :: t => if p.1 = k then (k, v) :: t else p :: dictSet k v t

/-- The payload of a successful `_read_device_sync` call (the dict it
returns; `data.get` with defaults is applied at the use site, so the
defaults live here). -/
structure DeviceData where
  manufacturer : String := "Unknown"
  medium : String := "Unknown"
  identification : String := ""
  records : List RecordEntry := []
deriving DecidableEq

/-- Outcome of one executor call to `_read_device_sync`: it returned a
(truthy, non-empty) dict, returned `None`, or the awaited call raised. -/
inductive ReadOutcome
  | success (data : DeviceData)
  | noData
  | raised
deriving DecidableEq

structure MBusHandler where
  max_retries : Nat
  devices : List (String × MBusDevice)
  circuit_breaker : CircuitBreaker
deriving DecidableEq

/-- `MBusHandler.read_device` (src/mbus_handler.py lines 357-418): device
lookup, breaker gate, then the success / no-data / exception branches.
Returns the value returned to the caller plus the updated handler. -/
def MBusHandler.read_device (now : Int) (outcome : ReadOutcome) (h : MBusHandler)
    (address : String) : Option DeviceData × MBusHandler :=
  match dictGet address h.devices with
  | none => (none, h)
  | some device =>
    let att := h.circuit_breaker.can_attempt now
    let h1 : MBusHandler := { h with circuit_breaker := att.2 }
    if att.1 = false then (none, h1)
    else
      match outcome with
      | .success data =>
          let device1 := device.mark_online now
          let device2 := { device1 with
                           records := data.records,
                           manufacturer := data.manufacturer,
                           medium := data.medium,
                           identification := data.identification }
          (some data,
            { h1 with devices := dictSet address device2 h1.devices,
                      circuit_breaker := h1.circuit_breaker.record_success })
      | .noData =>
          let device1 := device.mark_failure now
          let device2 :=
            if device1.consecutive_failures ≥ h1.max_retries then
              device1.mark_offline now
            else device1
          (none, { h1 with devices := dictSet address device2 h1.devices })
      | .raised =>
          let device1 := device.mark_failure now
          (none,
            { h1 with devices := dictSet address device1 h1.devices,
                      circuit_breaker := h1.circuit_breaker.record_failure now })

/-- Loop body of `MBusHandler.read_all_devices` (lines 335-355): iterate
over the device addresses, skipping a device with `not device.online and
device.consecutive_failures >= max_retries`; `outcomes` gives the bus
outcome for each attempted address. -/
def readAllGo (now : Int) (outcomes : String → ReadOutcome) :
    List String → MBusHandler → List (String × Option DeviceData) →
    List (String × Option DeviceData) × MBusHandler
  | [], h, acc => (acc, h)
  | a :: rest, h, acc =>
    match dictGet a h.devices with
    | none => readAllGo now outcomes rest h acc
    | some device =>
      if device.online = false ∧ h.max_retries ≤ device.consecutive_failures then
        readAllGo now outcomes rest h acc
      else
        let r := h.read_device now (outcomes a) a
        readAllGo now outcomes rest r.2 (acc ++ [(a, r.1)])

/-- `MBusHandler.read_all_devices`: results map (in iteration order) plus
the final handler state. -/
def MBusHandler.read_all_devices (now : Int) (outcomes : String → ReadOutcome)
    (h : MBusHandler) : List (String × Option DeviceData) × MBusHandler :=
  readAllGo now outcomes (h.devices.map (fun p => p.1)) h []

/-- Outcome of the executor call to `_scan_devices_sync`. -/
inductive ScanOutcome
  | ok (addresses : List String)
  | raised
deriving DecidableEq

/-- `MBusHandler.scan_devices` (lines 193-231).  The final `Bool` records
whether the blocking bus scan was actually submitted to the executor
(false exactly when the circuit breaker short-circuits the call). -/
def MBusHandler.scan_devices (now : Int) (outcome : ScanOutcome) (h : MBusHandler) :
    List String × MBusHandler × Bool :=
  let att := h.circuit_breaker.can_attempt now
  let h1 : MBusHandler := { h with circuit_breaker := att.2 }
  if att.1 = false then ([], h1, false)
  else
    match outcome with
    | .ok addresses =>
        let devs := addresses.foldl
          (fun ds a =>
            if (dictGet a ds).isSome then ds
            else dictSet a { address := a, name := "M-Bus Meter " ++ a } ds)
          h1.devices
        (addresses,
          { h1 with devices := devs,
                    circuit_breaker := h1.circuit_breaker.record_success }, true)
    | .raised =>
        ([], { h1 with circuit_breaker := h1.circuit_breaker.record_failure now }, true)

/-! ## Shared dictionary lemmas -/

theorem dictGet_dictSet_self {α : Type} (k : String) (v : α) (l : List (String × α)) :
    dictGet k (dictSet k v l) = some v := by
  induction l with
  | nil => simp [dictGet, dictSet]
  | cons p t ih =>
      by_cases hp : p.1 = k
      · simp [dictSet, hp, dictGet]
      · simp [dictSet, hp, dictGet, ih]

theorem dictGet_dictSet_ne {α : Type} (k k' : String) (v : α) (l : List (String × α))
    (h : k ≠ k') : dictGet k (dictSet k' v l) = dictGet k l := by
  induction l with
  | nil => simp [dictGet, dictSet, Ne.symm h]
  | cons p t ih =>
      by_cases hp : p.1 = k'
      · have hk : ¬ p.1 = k := by rw [hp]; exact Ne.symm h
        simp [dictSet, hp, dictGet, Ne.symm h, hk]
      · simp [dictSet, hp, dictGet, ih]

/-! ## Claim C2: circuit-breaker open / half-open protocol -/

/-- C2, counterexample to the claim as stated.  After five failures the
breaker opens; at `now = 300` the timeout (300 s) has elapsed and
`can_attempt` moves to half-open (resetting `failures` to 0).  Contrary to
the claim, (i) a failure recorded in half-open does NOT return the breaker
to open (`failures = 1 < failure_threshold = 5` leaves the state
half-open), and (ii) further attempts are allowed immediately after
(`can_attempt` in half-open is unconditionally true), so more than one
probe attempt passes before any success/failure is recorded. -/
theorem C2_claim_counterexample :
    let cb0 : CircuitBreaker := {}
    let cb5 := CircuitBreaker.record_failure 0 (CircuitBreaker.record_failure 0
      (CircuitBreaker.record_failure 0 (CircuitBreaker.record_failure 0
        (CircuitBreaker.record_failure 0 cb0))))
    let probe := (CircuitBreaker.can_attempt 300 cb5).2
    cb5.state = BreakerState.opened ∧
    (CircuitBreaker.can_attempt 300 cb5).1 = true ∧
    probe.state = BreakerState.halfOpen ∧
    (CircuitBreaker.can_attempt 300 probe).1 = true ∧
    (CircuitBreaker.record_failure 300 probe).state ≠ BreakerState.opened ∧
    (CircuitBreaker.can_attempt 301 (CircuitBreaker.record_failure 300 probe)).1 = true := by
  decide

/-- C2 amended: while open, `can_attempt` returns false (and leaves the
breaker unchanged) until `timeout` has elapsed since `last_failure_time`;
once elapsed, `can_attempt` transitions to half-open with `failures` reset
to 0 and returns true.  In half-open every `can_attempt` returns true (the
code does not limit the number of probes before an outcome is recorded);
`record_success` returns to closed with `failures = 0`; a failure in
half-open increments `failures`, restamps the timer, and re-opens the
breaker only once `failures` again reaches `failure_threshold`. -/
theorem C2_amended_theorem (cb : CircuitBreaker) (now : Int) :
    (cb.state = .opened → now - cb.last_failure_time < cb.timeout →
        cb.can_attempt now = (false, cb))
  ∧ (cb.state = .opened → cb.timeout ≤ now - cb.last_failure_time →
        cb.can_attempt now = (true, { cb with state := .halfOpen, failures := 0 }))
  ∧ (cb.state = .halfOpen → cb.can_attempt now = (true, cb))
  ∧ cb.record_success.state = .closed ∧ cb.record_success.failures = 0
  ∧ (cb.state = .halfOpen →
        (cb.record_failure now).state =
          (if cb.failure_threshold ≤ cb.failures + 1 then .opened else .halfOpen)
        ∧ (cb.record_failure now).failures = cb.failures + 1
        ∧ (cb.record_failure now).last_failure_time = now) := by
  refine ⟨?_, ?_, ?_, ?_, ?_, ?_⟩
  · intro h1 h2
    simp only [CircuitBreaker.can_attempt, h1]
    rw [if_neg (by omega)]
  · intro h1 h2
    simp only [CircuitBreaker.can_attempt, h1]
    rw [if_pos (by omega)]
  · intro h1
    simp only [CircuitBreaker.can_attempt, h1]
  · rfl
  · rfl
  · intro _
    refine ⟨?_, ?_, ?_⟩ <;>
      · simp only [CircuitBreaker.record_failure]
        split <;> simp_all

/-- C2 amended, witness: a breaker that opened at time 0 with a 300 s
timeout refuses an attempt at time 100. -/
theorem C2_amended_witness :
    CircuitBreaker.can_attempt 100 (⟨5, 300, 5, 0, .opened⟩ : CircuitBreaker) =
      (false, (⟨5, 300, 5, 0, .opened⟩ : CircuitBreaker)) :=
  (C2_amended_theorem ⟨5, 300, 5, 0, .opened⟩ 100).1 rfl (by decide)

/-! ## Claim C4: per-device online flag vs consecutive_failures -/

/-- C4, counterexample to the claim as stated.  In `read_device` the
exception branch (`except Exception`) calls `device.mark_failure()` and
`circuit_breaker.record_failure()` but never `device.mark_offline()`:
after three raising reads with `max_retries = 3` the device has
`consecutive_failures = 3 >= max_retries` yet `online` is still true,
refuting the "if and only if". -/
theorem C4_claim_counterexample :
    let h0 : MBusHandler :=
      { max_retries := 3,
        devices := [("m1", { address := "m1", name := "M-Bus Meter m1" })],
        circuit_breaker := {} }
    let h3 := ((((h0.read_device 1 .raised "m1").2).read_device 2 .raised
      "m1").2.read_device 3 .raised "m1").2
    (dictGet "m1" h3.devices).map (fun d => (d.online, d.consecutive_failures)) =
      some (true, 3) := by
  decide

/-- C4 amended: `online = false` implies `consecutive_failures` has
reached `max_retries` (the invariant is preserved by every read outcome),
a completed-but-empty read increments the counter and marks the device
offline exactly when the count reaches `max_retries`, and a successful
read resets the counter to 0 and sets `online = true`.  The converse of
the claim fails: a read that raises increments `consecutive_failures`
without ever marking the device offline, so `online` can stay true with
`consecutive_failures ≥ max_retries`. -/
theorem C4_amended_theorem (h : MBusHandler) (now : Int) (outcome : ReadOutcome)
    (address : String) (d : MBusDevice)
    (hd : dictGet address h.devices = some d)
    (hinv : d.online = false → h.max_retries ≤ d.consecutive_failures)
    (hatt : (h.circuit_breaker.can_attempt now).1 = true) :
    ∀ d', dictGet address ((h.read_device now outcome address).2).devices = some d' →
      ((d'.online = false → h.max_retries ≤ d'.consecutive_failures)
      ∧ (outcome = .raised → d'.online = d.online
          ∧ d'.consecutive_failures = d.consecutive_failures + 1)
      ∧ (outcome = .noData → d'.consecutive_failures = d.consecutive_failures + 1
          ∧ (d'.online = false ↔ h.max_retries ≤ d.consecutive_failures + 1))
      ∧ (∀ data, outcome = .success data → d'.online = true
          ∧ d'.consecutive_failures = 0)) := by
  intro d' hd'
  simp only [MBusHandler.read_device, hd, hatt] at hd'
  rw [if_neg (by simp [hatt])] at hd'
  cases outcome with
  | success data =>
      simp only [MBusDevice.mark_online, dictGet_dictSet_self, Option.some.injEq] at hd'
      subst hd'
      refine ⟨by simp, by simp, by simp, ?_⟩
      intro data0 _
      exact ⟨rfl, rfl⟩
  | noData =>
      simp only [MBusDevice.mark_failure, MBusDevice.mark_offline, ge_iff_le] at hd'
      by_cases hth : h.max_retries ≤ d.consecutive_failures + 1
      · rw [if_pos hth] at hd'
        simp only [dictGet_dictSet_self, Option.some.injEq] at hd'
        subst hd'
        refine ⟨fun _ => hth, by simp, fun _ => ⟨rfl, by simpa using hth⟩, by simp⟩
      · rw [if_neg hth] at hd'
        simp only [dictGet_dictSet_self, Option.some.injEq] at hd'
        subst hd'
        refine ⟨?_, by simp, fun _ => ⟨rfl, ?_⟩, by simp⟩
        · intro hoff
          exact absurd (Nat.le_succ_of_le (hinv hoff)) hth
        · simp only [iff_false_intro hth, iff_false]
          intro hoff
          exact absurd (Nat.le_succ_of_le (hinv hoff)) hth
  | raised =>
      simp only [MBusDevice.mark_failure, dictGet_dictSet_self, Option.some.injEq] at hd'
      subst hd'
      refine ⟨?_, fun _ => ⟨rfl, rfl⟩, by simp, by simp⟩
      intro hoff
      exact Nat.le_succ_of_le (hinv hoff)

/-- C4 amended, witness: one empty read on a fresh device (`max_retries =
3`) increments the counter to 1 and leaves the device online. -/
theorem C4_amended_witness :
    (⟨"m1", "m", "Unknown", "Unknown", "", 5, true, 1, []⟩ :
        MBusDevice).consecutive_failures = 0 + 1
    ∧ ((⟨"m1", "m", "Unknown", "Unknown", "", 5, true, 1, []⟩ :
        MBusDevice).online = false ↔ (3 : Nat) ≤ 0 + 1) := by
  have H := C4_amended_theorem
    { max_retries := 3,
      devices := [("m1", { address := "m1", name := "m" })],
      circuit_breaker := {} }
    5 .noData "m1" { address := "m1", name := "m" } (by decide) (by decide) (by decide)
    ⟨"m1", "m", "Unknown", "Unknown", "", 5, true, 1, []⟩ (by decide)
  exact H.2.2.1 rfl

/-! ## Claim C5: offline devices and the periodic read cycle -/

/-- Handler fixture shared by the C5 theorems: one device already marked
offline after `max_retries = 3` consecutive failures. -/
def hC5 : MBusHandler :=
  { max_retries := 3,
    devices := [("m1", { address := "m1", name := "m", online := false,
                         consecutive_failures := 3 })],
    circuit_breaker := {} }

/-- C5, counterexample to the claim as stated.  `read_all_devices` skips
every device with `not device.online and device.consecutive_failures >=
max_retries` ("# Skip offline devices"), so with an oracle that would
answer every read successfully the offline device is never attempted and
stays offline: the periodic read cycle does NOT continue to attempt reads
of offline devices. -/
theorem C5_claim_counterexample :
    MBusHandler.read_all_devices 7 (fun _ => ReadOutcome.success {}) hC5 = ([], hC5) := by
  decide

/-- `read_device` on a different address never touches this key (and
leaves `max_retries` unchanged). -/
theorem read_device_other_key (h : MBusHandler) (now : Int) (o : ReadOutcome)
    (a addr : String) (hne : addr ≠ a) :
    dictGet addr ((h.read_device now o a).2).devices = dictGet addr h.devices
    ∧ ((h.read_device now o a).2).max_retries = h.max_retries := by
  unfold MBusHandler.read_device
  cases hg : dictGet a h.devices with
  | none => exact ⟨rfl, rfl⟩
  | some device =>
      simp only
      split
      · exact ⟨rfl, rfl⟩
      · cases o <;> simp [dictGet_dictSet_ne _ _ _ _ hne]

/-- The read loop never attempts nor alters a device that is offline with
`consecutive_failures ≥ max_retries`. -/
theorem readAllGo_skips (now : Int) (outcomes : String → ReadOutcome) (addr : String)
    (d : MBusDevice) (hoff : d.online = false) :
    ∀ (addrs : List String) (h : MBusHandler) (acc : List (String × Option DeviceData)),
      dictGet addr h.devices = some d →
      h.max_retries ≤ d.consecutive_failures →
      (∀ p ∈ acc, p.1 ≠ addr) →
      (∀ p ∈ (readAllGo now outcomes addrs h acc).1, p.1 ≠ addr)
      ∧ dictGet addr ((readAllGo now outcomes addrs h acc).2).devices = some d
      ∧ ((readAllGo now outcomes addrs h acc).2).max_retries = h.max_retries := by
  intro addrs
  induction addrs with
  | nil => intro h acc hd hmax hacc; exact ⟨hacc, hd, rfl⟩
  | cons a rest ih =>
      intro h acc hd hmax hacc
      by_cases haddr : a = addr
      · subst haddr
        simp only [readAllGo, hd]
        rw [if_pos ⟨hoff, hmax⟩]
        exact ih h acc hd hmax hacc
      · simp only [readAllGo]
        cases hg : dictGet a h.devices with
        | none => exact ih h acc hd hmax hacc
        | some device =>
            simp only
            split
            · exact ih h acc hd hmax hacc
            · have hne : addr ≠ a := fun e => haddr e.symm
              have hpres := read_device_other_key h now (outcomes a) a addr hne
              have hacc' : ∀ p ∈ acc ++ [(a, (h.read_device now (outcomes a) a).1)],
                  p.1 ≠ addr := by
                intro p hp
                rcases List.mem_append.mp hp with hp | hp
                · exact hacc p hp
                · simp only [List.mem_singleton] at hp
                  subst hp
                  simpa using haddr
              have := ih ((h.read_device now (outcomes a) a).2)
                (acc ++ [(a, (h.read_device now (outcomes a) a).1)])
                (hpres.1.trans hd) (hpres.2 ▸ hmax) hacc'
              exact ⟨this.1, this.2.1, this.2.2.trans hpres.2⟩

/-- C5 amended: the per-device state machine does admit `offline →
(read success) → online` — `read_device` on a successful outcome marks the
device online with the failure counter reset — but the periodic read cycle
(`read_all_devices`) skips every device that is offline with
`consecutive_failures ≥ max_retries`, so offline devices are never
attempted by the cycle and keep their state; only a direct `read_device`
call can bring them back online. -/
theorem C5_amended_theorem :
    (∀ (h : MBusHandler) (now : Int) (addr : String) (d : MBusDevice) (data : DeviceData),
       dictGet addr h.devices = some d →
       (h.circuit_breaker.can_attempt now).1 = true →
       ∀ d', dictGet addr ((h.read_device now (.success data) addr).2).devices = some d' →
         d'.online = true ∧ d'.consecutive_failures = 0)
  ∧ (∀ (h : MBusHandler) (now : Int) (outcomes : String → ReadOutcome)
       (addr : String) (d : MBusDevice),
       dictGet addr h.devices = some d →
       d.online = false → h.max_retries ≤ d.consecutive_failures →
       (∀ p ∈ (h.read_all_devices now outcomes).1, p.1 ≠ addr)
       ∧ dictGet addr ((h.read_all_devices now outcomes).2).devices = some d) := by
  constructor
  · intro h now addr d data hd hatt d' hd'
    simp only [MBusHandler.read_device, hd, hatt] at hd'
    rw [if_neg (by simp [hatt])] at hd'
    simp only [MBusDevice.mark_online, dictGet_dictSet_self, Option.some.injEq] at hd'
    subst hd'
    exact ⟨rfl, rfl⟩
  · intro h now outcomes addr d hd hoff hmax
    have := readAllGo_skips now outcomes addr d hoff
      (h.devices.map (fun p => p.1)) h [] hd hmax (by simp)
    exact ⟨this.1, this.2.1⟩

/-- C5 amended, witness: the offline device of `hC5` is untouched by a
read cycle whose oracle would answer successfully. -/
theorem C5_amended_witness :
    dictGet "m1" ((MBusHandler.read_all_devices 7 (fun _ => ReadOutcome.success {})
        hC5).2).devices =
      some { address := "m1", name := "m", online := false, consecutive_failures := 3 } :=
  (C5_amended_theorem.2 hC5 7 (fun _ => ReadOutcome.success {}) "m1"
      { address := "m1", name := "m", online := false, consecutive_failures := 3 }
      (by decide) (by decide) (by decide)).2

/-! ## Claim C9: scan_devices error handling -/

/-- A refused `can_attempt` leaves the breaker unchanged. -/
theorem can_attempt_false_eq (cb : CircuitBreaker) (now : Int)
    (hf : (cb.can_attempt now).1 = false) : (cb.can_attempt now).2 = cb := by
  obtain ⟨ft, tmo, fl, lf, st⟩ := cb
  cases st <;> simp only [CircuitBreaker.can_attempt] at hf ⊢
  split at hf
  · simp at hf
  · rename_i hcond
    simp only [ge_iff_le]
    rw [if_neg hcond]

/-- C9: `scan_devices` is total over both failure modes.  When the circuit
breaker disallows attempts it returns `[]` without submitting the blocking
scan (third component `false`) and leaves the handler — in particular the
known-device dict — unchanged; when the synchronous scan raises, it
returns `[]`, leaves the device dict unchanged, and records a breaker
failure. -/
theorem C9_theorem (h : MBusHandler) (now : Int) (outcome : ScanOutcome) :
    ((h.circuit_breaker.can_attempt now).1 = false →
        h.scan_devices now outcome = ([], h, false))
  ∧ (outcome = .raised →
        (h.scan_devices now outcome).1 = []
        ∧ ((h.scan_devices now outcome).2.1).devices = h.devices
        ∧ ((h.circuit_breaker.can_attempt now).1 = true →
            ((h.scan_devices now outcome).2.1).circuit_breaker =
              ((h.circuit_breaker.can_attempt now).2).record_failure now)) := by
  constructor
  · intro hf
    have h2 := can_attempt_false_eq _ _ hf
    simp only [MBusHandler.scan_devices]
    rw [if_pos hf, h2]
  · rintro rfl
    simp only [MBusHandler.scan_devices]
    split
    · next hf => exact ⟨rfl, rfl, fun ht => absurd ht (by simp [hf])⟩
    · exact ⟨rfl, rfl, fun _ => rfl⟩

/-- C9, witness: with the breaker open and the timeout not yet elapsed the
scan is short-circuited. -/
theorem C9_witness :
    MBusHandler.scan_devices 10 (ScanOutcome.ok ["00000001AAAA1107"])
        { max_retries := 3, devices := [],
          circuit_breaker := ⟨5, 300, 5, 0, .opened⟩ } =
      ([], { max_retries := 3, devices := [],
             circuit_breaker := ⟨5, 300, 5, 0, .opened⟩ }, false) :=
  (C9_theorem { max_retries := 3, devices := [],
                circuit_breaker := ⟨5, 300, 5, 0, .opened⟩ }
      10 (ScanOutcome.ok ["00000001AAAA1107"])).1 (by decide)

/-! ## MQTT handler: discovery sessions (src/mqtt_handler.py, src/main.py)

Model of the session-relevant state of `MQTTHandler`: `connected`,
`ha_online`, the `discovery_sent` set (kept as a list of keys), and a
trace `discPub` of the per-attribute discovery configurations actually
handed to `publish` (in publication order).  `persisted` is the read-only
content of the persistence layer consumed by `_send_all_discovery`
(device_id together with its attribute names). -/

structure DiscoveryState where
  connected : Bool := false
  ha_online : Bool := false
  discovery_sent : List String := []
  discPub : List (String × String) := []
deriving DecidableEq

/-- The key `publish_discovery` checks against `discovery_sent`
(line 295): `f"discovery_{device_id}"` — one key per DEVICE, not one per
device/attribute pair. -/
def discoveryKey (device_id : String) : String := "discovery_" ++ device_id

/-- `MQTTHandler.publish_discovery` (lines 273-325): skip everything when
the device key was already sent this session, otherwise publish one
discovery config per attribute (in dict order) and add the device key. -/
def publish_discovery (s : DiscoveryState) (device_id : String)
    (attrs : List String) : DiscoveryState :=
  if discoveryKey device_id ∈ s.discovery_sent then s
  else
    { s with discPub := s.discPub ++ attrs.map (fun a => (device_id, a)),
             discovery_sent := s.discovery_sent ++ [discoveryKey device_id] }

/-- `MQTTHandler._send_all_discovery` (lines 526-562): call
`publish_discovery` for every persisted device.  Note: it does NOT clear
`discovery_sent` first. -/
def send_all_discovery (persisted : List (String × List String))
    (s : DiscoveryState) : DiscoveryState :=
  persisted.foldl (fun st p => publish_discovery st p.1 p.2) s

inductive MqttEvent
  | onConnect (rc : Nat)
  | onDisconnect (rc : Nat)
  | haStatus (payload : String)
  | publishDiscovery (device_id : String) (attrs : List String)
deriving DecidableEq

/-- Session state machine assembled from `_on_connect` (lines 172-194:
`rc == 0` sets connected and clears `discovery_sent`), `_on_disconnect`
(lines 196-207: clears `connected`, `ha_online` and `discovery_sent`),
`_on_message` on `homeassistant/status` (lines 209-225: sets `ha_online`
and, when the payload is "online", schedules `_send_all_discovery`), and
`publish_discovery`. -/
def mqttStep (persisted : List (String × List String)) (s : DiscoveryState) :
    MqttEvent → DiscoveryState
  | .onConnect rc =>
      if rc = 0 then { s with connected := true, discovery_sent := [] }
      else { s with connected := false }
  | .onDisconnect _ =>
      { s with connected := false, ha_online := false, discovery_sent := [] }
  | .haStatus payload =>
      let s1 := { s with ha_online := payload = "online" }
      if payload = "online" then send_all_discovery persisted s1 else s1
  | .publishDiscovery dev attrs => publish_discovery s dev attrs

def mqttRun (persisted : List (String × List String)) (s : DiscoveryState)
    (evs : List MqttEvent) : DiscoveryState :=
  evs.foldl (mqttStep persisted) s

/-- C1, evaluation at the failing input.  One session: connect, publish
discovery for device `m1` with attribute `Energie`, then `publish_discovery`
again after a new attribute `Leistung` appeared, then Home Assistant
announces it came back online (triggering `_send_all_discovery` over the
persisted snapshot of `m1`).  The code publishes only the one config sent
first: because `discovery_sent` is keyed per device and is not cleared on
the HA-online announcement, neither the first-seen attribute `Leistung`
nor the announced session reset triggers any discovery publish, contrary
to the claim (and to the code's own comments "Publish discovery (if new
attributes)" and "Resend discovery for all devices"). -/
theorem C1_code_evaluation :
    mqttRun [("m1", ["Energie", "Leistung"])] {}
      [MqttEvent.onConnect 0,
       MqttEvent.publishDiscovery "m1" ["Energie"],
       MqttEvent.publishDiscovery "m1" ["Energie", "Leistung"],
       MqttEvent.haStatus "online"] =
    { connected := true, ha_online := true,
      discovery_sent := [discoveryKey "m1"],
      discPub := [("m1", "Energie")] } := by
  decide

/-! ## Claim C6: publish never drops a message -/

/-- A row of the `mqtt_queue` table (`id` is the AUTOINCREMENT primary
key, `created_at` the `time.time()` stamp taken by `queue_mqtt_message`). -/
structure QMsg where
  id : Nat
  topic : String
  payload : String
  qos : Nat
  retain : Bool
  created_at : Int
deriving DecidableEq

/-- Outcome of one `self.client.publish(...)` call: success return code,
non-success return code, or a raised exception. -/
inductive PubOutcome
  | success
  | failRc
  | raised
deriving DecidableEq

/-- State touched by `MQTTHandler.publish`: the connected flag, the
durable queue (with its AUTOINCREMENT counter) and the trace of messages
successfully handed to the client. -/
structure PubState where
  connected : Bool
  queue : List QMsg
  nextId : Nat
  delivered : List (String × String)
deriving DecidableEq

/-- `StatePersistence.queue_mqtt_message` (persistence.py lines 213-238):
INSERT a new row with the next id and the current timestamp. -/
def queue_mqtt_message (topic payload : String) (qos : Nat) (retain : Bool)
    (now : Int) (s : PubState) : PubState :=
  { s with queue := s.queue ++ [⟨s.nextId, topic, payload, qos, retain, now⟩],
           nextId := s.nextId + 1 }

/-- `MQTTHandler.publish` (mqtt_handler.py lines 227-271): not connected →
queue and return False; client reports success → return True; non-success
return code or exception → queue and return False. -/
def publish (outcome : PubOutcome) (now : Int) (s : PubState)
    (topic payload : String) (qos : Nat) (retain : Bool) : Bool × PubState :=
  if s.connected = false then
    (false, queue_mqtt_message topic payload qos retain now s)
  else
    match outcome with
    | .success => (true, { s with delivered := s.delivered ++ [(topic, payload)] })
    | .failRc => (false, queue_mqtt_message topic payload qos retain now s)
    | .raised => (false, queue_mqtt_message topic payload qos retain now s)

/-- C6: `publish` returns true iff the client is connected and reports a
success result; in every other case the message is appended to the durable
queue exactly once (and only then), and a successful publish leaves the
queue untouched.  No attempt is dropped: the return value is false exactly
when the message was enqueued. -/
theorem C6_theorem (outcome : PubOutcome) (now : Int) (s : PubState)
    (topic payload : String) (qos : Nat) (retain : Bool) :
    ((publish outcome now s topic payload qos retain).1 = true ↔
        (s.connected = true ∧ outcome = .success))
  ∧ ((publish outcome now s topic payload qos retain).1 = false →
        (publish outcome now s topic payload qos retain).2.queue =
          s.queue ++ [⟨s.nextId, topic, payload, qos, retain, now⟩])
  ∧ ((publish outcome now s topic payload qos retain).1 = true →
        (publish outcome now s topic payload qos retain).2.queue = s.queue) := by
  cases hc : s.connected <;> cases outcome <;>
    simp [publish, queue_mqtt_message, hc]

/-- C6, witness: a publish while disconnected returns false and appends
exactly one row to the queue. -/
theorem C6_witness :
    (publish PubOutcome.success 5 ⟨false, [], 0, []⟩ "t" "p" 1 false).2.queue =
      ([] : List QMsg) ++ [⟨0, "t", "p", 1, false, 5⟩] :=
  (C6_theorem PubOutcome.success 5 ⟨false, [], 0, []⟩ "t" "p" 1 false).2.1 (by decide)


/-! ## Claim C3: queue draining order -/

/-- `StatePersistence.get_queued_messages` (persistence.py lines 240-272):
`SELECT ... FROM mqtt_queue ORDER BY created_at ASC LIMIT ?`.  The table
rows are kept in rowid (insertion) order; the query is a stable sort on
`created_at` followed by the LIMIT (SQLite scans the ascending
`created_at` index, whose ties are ordered by rowid). -/
def get_queued_messages (q : List QMsg) (limit : Nat) : List QMsg :=
  (q.mergeSort (fun a b => decide (a.created_at ≤ b.created_at))).take limit

/-- `StatePersistence.delete_queued_message` (lines 274-282):
`DELETE FROM mqtt_queue WHERE id = ?`. -/
def delete_queued_message (i : Nat) (q : List QMsg) : List QMsg :=
  q.filter (fun m => m.id != i)

/-- Inner `for msg in messages` loop of `_process_queue_loop`
(mqtt_handler.py lines 497-518): publish each batch message in order,
delete it from the queue only on a success return code, and break out of
the batch on a non-success code or an exception.  Returns the messages
confirmed delivered (in order) and the remaining queue. -/
def drainGo (deliver : QMsg → PubOutcome) :
    List QMsg → List QMsg → List QMsg × List QMsg
  | [], q => ([], q)
  | m :: rest, q =>
    match deliver m with
    | .success =>
        let r := drainGo deliver rest (delete_queued_message m.id q)
        (m :: r.1, r.2)
    | .failRc => ([], q)
    | .raised => ([], q)

/-- One iteration of the `_process_queue_loop` body (lines 480-524): do
nothing while disconnected, otherwise fetch a batch of at most 100
messages and drain it. -/
def process_queue_cycle (connected : Bool) (deliver : QMsg → PubOutcome)
    (q : List QMsg) : List QMsg × List QMsg :=
  if connected = false then ([], q)
  else drainGo deliver (get_queued_messages q 100) q

/-- `n` consecutive connected queue-processing cycles; first component is
the concatenated delivery trace. -/
def iterDrain (deliver : QMsg → PubOutcome) : Nat → List QMsg → List QMsg × List QMsg
  | 0, q => ([], q)
  | n + 1, q =>
    let r := process_queue_cycle true deliver q
    let r2 := iterDrain deliver n r.2
    (r.1 ++ r2.1, r2.2)

/-- Invariant of the `mqtt_queue` table as maintained by
`queue_mqtt_message`: rowids strictly increase and `created_at` stamps are
non-decreasing in insertion order (ids come from AUTOINCREMENT, stamps
from consecutive `time.time()` calls). -/
def queueInv (q : List QMsg) : Prop :=
  q.Pairwise (fun a b => a.id < b.id ∧ a.created_at ≤ b.created_at)

instance (q : List QMsg) : Decidable (queueInv q) := by
  unfold queueInv; infer_instance

theorem queueInv_tail {m : QMsg} {t : List QMsg} (h : queueInv (m :: t)) : queueInv t :=
  (List.pairwise_cons.mp h).2

/-- On an invariant-respecting table the SQL query returns exactly the
first `limit` rows in insertion order. -/
theorem get_queued_messages_eq_take (q : List QMsg) (limit : Nat) (h : queueInv q) :
    get_queued_messages q limit = q.take limit := by
  unfold get_queued_messages
  rw [List.mergeSort_of_sorted]
  exact h.imp (fun hab => by simpa using hab.2)

theorem delete_queued_message_head (m : QMsg) (t : List QMsg)
    (h : queueInv (m :: t)) : delete_queued_message m.id (m :: t) = t := by
  have hids := (List.pairwise_cons.mp h).1
  simp only [delete_queued_message, List.filter_cons, bne_self_eq_false,
    Bool.false_eq_true, if_false]
  exact List.filter_eq_self.mpr (fun b hb => by
    have := (hids b hb).1
    simpa [bne] using Nat.ne_of_gt this)

theorem drainGo_take (deliver : QMsg → PubOutcome) :
    ∀ (n : Nat) (q : List QMsg), queueInv q →
      drainGo deliver (q.take n) q =
        ((q.take n).takeWhile (fun m => deliver m == .success),
          q.drop ((q.take n).takeWhile (fun m => deliver m == .success)).length) := by
  intro n q
  induction q generalizing n with
  | nil => intro _; cases n <;> simp [drainGo]
  | cons m t ih =>
      intro hinv
      cases n with
      | zero => simp [drainGo]
      | succ n =>
          simp only [List.take_succ_cons, drainGo]
          cases hdel : deliver m with
          | success =>
              rw [delete_queued_message_head m t hinv]
              rw [ih n (queueInv_tail hinv)]
              simp [List.takeWhile_cons, hdel]
          | failRc => simp [List.takeWhile_cons, hdel]
          | raised => simp [List.takeWhile_cons, hdel]

theorem queueInv_drop (q : List QMsg) (n : Nat) (h : queueInv q) :
    queueInv (q.drop n) :=
  h.sublist (List.drop_sublist n q)

theorem process_cycle_all_success (deliver : QMsg → PubOutcome)
    (hall : ∀ m, deliver m = .success) (q : List QMsg) (hinv : queueInv q) :
    process_queue_cycle true deliver q = (q.take 100, q.drop 100) := by
  unfold process_queue_cycle
  rw [if_neg (by simp), get_queued_messages_eq_take q 100 hinv,
    drainGo_take deliver 100 q hinv]
  have htw : (q.take 100).takeWhile (fun m => deliver m == .success) = q.take 100 := by
    apply List.takeWhile_eq_self_iff.mpr
    intro x _
    simp [hall x]
  rw [htw, List.length_take]
  congr 1
  rcases Nat.le_total 100 q.length with hle | hle
  · rw [min_eq_left hle]
  · rw [min_eq_right hle, List.drop_length, List.drop_eq_nil_of_le hle]

theorem iterDrain_all_success (deliver : QMsg → PubOutcome)
    (hall : ∀ m, deliver m = .success) :
    ∀ (n : Nat) (q : List QMsg), queueInv q → q.length ≤ n →
      iterDrain deliver n q = (q, []) := by
  intro n
  induction n with
  | zero =>
      intro q _ hlen
      have hq : q = [] := List.eq_nil_of_length_eq_zero (Nat.le_zero.mp hlen)
      subst hq
      rfl
  | succ n ih =>
      intro q hinv hlen
      simp only [iterDrain, process_cycle_all_success deliver hall q hinv]
      rw [ih (q.drop 100) (queueInv_drop q 100 hinv)
        (by simp only [List.length_drop]; omega)]
      simp [List.take_append_drop]

/-- C3: while connected, one queue cycle fetches at most 100 messages in
creation order, delivers the longest all-success head of that batch in
order, deletes exactly the delivered messages (every other message stays
queued, the remaining queue being the original one with the delivered
head removed), and stops at the first failed or raising delivery without
skipping ahead; a disconnected cycle does nothing.  Consequently, when
delivery succeeds, repeated cycles deliver the whole backlog in exactly
the order it was enqueued, leaving the queue empty. -/
theorem C3_theorem (deliver : QMsg → PubOutcome) (q : List QMsg) (hinv : queueInv q) :
    process_queue_cycle false deliver q = ([], q)
  ∧ process_queue_cycle true deliver q =
      ((q.take 100).takeWhile (fun m => deliver m == .success),
        q.drop ((q.take 100).takeWhile (fun m => deliver m == .success)).length)
  ∧ ((∀ m, deliver m = .success) → ∀ n, q.length ≤ n →
        iterDrain deliver n q = (q, [])) := by
  refine ⟨rfl, ?_, ?_⟩
  · unfold process_queue_cycle
    rw [if_neg (by simp), get_queued_messages_eq_take q 100 hinv]
    exact drainGo_take deliver 100 q hinv
  · intro hall n hlen
    exact iterDrain_all_success deliver hall n q hinv hlen

/-- C3, witness: three messages enqueued while disconnected are delivered
in enqueue order by the drain cycles and the queue ends empty. -/
theorem C3_witness :
    iterDrain (fun _ => PubOutcome.success) 3
        [⟨0, "a", "1", 1, false, 10⟩, ⟨1, "b", "2", 1, false, 11⟩,
         ⟨2, "c", "3", 1, false, 12⟩] =
      ([⟨0, "a", "1", 1, false, 10⟩, ⟨1, "b", "2", 1, false, 11⟩,
        ⟨2, "c", "3", 1, false, 12⟩], []) :=
  (C3_theorem (fun _ => PubOutcome.success)
      [⟨0, "a", "1", 1, false, 10⟩, ⟨1, "b", "2", 1, false, 11⟩,
       ⟨2, "c", "3", 1, false, 12⟩] (by decide)).2.2 (fun _ => rfl) 3 (by decide)

/-! ## Claim C7: recursive secondary-address scan

Model of `MBusHandler._scan_secondary_range` (mbus_handler.py lines
275-301).  The serial exchange of `_probe_secondary_address` (lines
303-333) is abstracted by a verdict oracle `probe`; `matched`, `collision`
and `noReply` stand for the returned strings "match", "collision" and
"no_reply".  Masks are the Python strings as lists of characters.  The
Lean function carries an explicit `fuel` bound on the recursion depth;
Python's unbounded recursion corresponds to `fuel` being large enough,
and both running out of fuel and an out-of-range `mask[pos]` access (an
`IndexError` in Python) are modelled as `none`. -/

inductive Verdict
  | matched
  | collision
  | noReply
deriving DecidableEq

/-- The character `f"{i:1X}"` (uppercase hexadecimal digit). -/
def hexUpperDigit (i : Nat) : Char :=
  if i < 10 then Char.ofNat (48 + i) else Char.ofNat (55 + i)

/-- `(mask[:pos] + f"{i:1X}" + mask[pos + 1:]).upper()`. -/
def maskSubst (mask : List Char) (pos : Nat) (i : Nat) : List Char :=
  (mask.set pos (hexUpperDigit i)).map Char.toUpper

/-- The `for i in range(l_start, l_end + 1)` loop body of
`_scan_secondary_range`: probe each substituted mask, record a match into
`discovered` (skipping duplicates), and recurse one position deeper on a
collision.  The recursive call is passed in as `recur` (it is
`_scan_secondary_range` at `pos + 1` with one less fuel). -/
def scanLoopF (recur : List Char → List String → Option (List String))
    (probe : List Char → Verdict) (pos : Nat) (mask : List Char) :
    List Nat → List String → Option (List String)
  | [], disc => some disc
  | i :: rest, disc =>
    let newMask := maskSubst mask pos i
    match probe newMask with
    | .matched =>
        scanLoopF recur probe pos mask rest
          (if String.mk newMask ∈ disc then disc else disc ++ [String.mk newMask])
    | .collision =>
        match recur newMask disc with
        | none => none
        | some disc2 => scanLoopF recur probe pos mask rest disc2
    | .noReply => scanLoopF recur probe pos mask rest disc

/-- `_scan_secondary_range(ser, pos, mask, discovered)`: at a wildcard
(`'F'`) position loop over the digits 0-9; at a fixed position below 15
skip straight to the next position; at a fixed position 15 run the loop
once with the fixed digit (`l_start = l_end = ord(mask[pos]) - ord('0')`). -/
def scan_secondary_range (probe : List Char → Verdict) :
    Nat → Nat → List Char → List String → Option (List String)
  | 0, _, _, _ => none
  | fuel + 1, pos, mask, disc =>
    match mask[pos]? with
    | none => none
    | some c =>
      if c.toUpper = 'F' then
        scanLoopF (fun m d => scan_secondary_range probe fuel (pos + 1) m d)
          probe pos mask (List.range 10) disc
      else if pos < 15 then
        scan_secondary_range probe fuel (pos + 1) mask disc
      else
        scanLoopF (fun m d => scan_secondary_range probe fuel (pos + 1) m d)
          probe pos mask [c.toNat - 48] disc

/-- Characters that can appear in a reachable mask: decimal digits or the
wildcard (the initial mask is "FFFFFFFFFFFFFFFF" and substitutions insert
digits 0-9). -/
def maskChars : List Char := ['0', '1', '2', '3', '4', '5', '6', '7', '8', '9', 'F']

def digitChars : List Char := ['0', '1', '2', '3', '4', '5', '6', '7', '8', '9']

def goodMask (m : List Char) : Prop := ∀ c ∈ m, c ∈ maskChars

def fullDigits (m : List Char) : Prop := ∀ c ∈ m, c ∈ digitChars

/-- Positions strictly below `pos` are already instantiated to digits. -/
def digitsBelow (pos : Nat) (m : List Char) : Prop :=
  ∀ i, i < pos → ∀ c, m[i]? = some c → c ∈ digitChars

/-- The claim's precondition on the probe-outcome oracle: a fully
instantiated 16-digit mask never yields a collision verdict. -/
def probeOk (probe : List Char → Verdict) : Prop :=
  ∀ m, m.length = 16 → fullDigits m → probe m ≠ .collision

theorem toUpper_eq_self_of_mask {c : Char} (h : c ∈ maskChars) : c.toUpper = c := by
  simp only [maskChars, List.mem_cons, List.not_mem_nil, or_false] at h
  rcases h with rfl | rfl | rfl | rfl | rfl | rfl | rfl | rfl | rfl | rfl | rfl <;> decide

theorem map_toUpper_eq_self {m : List Char} (h : goodMask m) :
    m.map Char.toUpper = m := by
  induction m with
  | nil => rfl
  | cons c t ih =>
      rw [List.map_cons, toUpper_eq_self_of_mask (h c (List.mem_cons_self c t)),
        ih (fun x hx => h x (List.mem_cons_of_mem c hx))]

theorem hexUpperDigit_mem_digitChars {i : Nat} (h : i < 10) :
    hexUpperDigit i ∈ digitChars := by
  unfold hexUpperDigit
  rw [if_pos h]
  interval_cases i <;> decide

theorem digitChars_subset_maskChars {c : Char} (h : c ∈ digitChars) : c ∈ maskChars := by
  simp only [digitChars, List.mem_cons, List.not_mem_nil, or_false] at h
  rcases h with rfl | rfl | rfl | rfl | rfl | rfl | rfl | rfl | rfl | rfl <;> decide

theorem goodMask_set {m : List Char} (h : goodMask m) {c : Char} (hc : c ∈ maskChars)
    (pos : Nat) : goodMask (m.set pos c) := by
  intro x hx
  rcases List.mem_or_eq_of_mem_set hx with hx | rfl
  · exact h x hx
  · exact hc

theorem maskSubst_eq {mask : List Char} {pos i : Nat} (hm : goodMask mask)
    (hi : i < 10) : maskSubst mask pos i = mask.set pos (hexUpperDigit i) :=
  map_toUpper_eq_self
    (goodMask_set hm (digitChars_subset_maskChars (hexUpperDigit_mem_digitChars hi)) pos)

theorem digitsBelow_subst {mask : List Char} {pos i : Nat}
    (hd : digitsBelow pos mask) (hi : i < 10) :
    digitsBelow (pos + 1) (mask.set pos (hexUpperDigit i)) := by
  intro j hj c hc
  by_cases hjp : j = pos
  · subst hjp
    rcases Nat.lt_or_ge j mask.length with hlt | hge
    · rw [List.getElem?_set_self hlt] at hc
      cases hc
      exact hexUpperDigit_mem_digitChars hi
    · rw [List.getElem?_eq_none (by simpa using hge)] at hc
      cases hc
  · rw [List.getElem?_set_ne (fun e => hjp e.symm)] at hc
    exact hd j (by omega) c hc

theorem fullDigits_of_below {m : List Char} (hlen : m.length = 16)
    (hd : digitsBelow 16 m) : fullDigits m := by
  intro c hc
  obtain ⟨n, hn⟩ := List.mem_iff_getElem?.mp hc
  have hnlt : n < 16 := by
    by_contra hge
    rw [List.getElem?_eq_none (by omega)] at hn
    cases hn
  exact hd n hnlt c hn

theorem mask_digit_of_not_wild {c : Char} (hm : c ∈ maskChars)
    (hF : ¬ c.toUpper = 'F') : c ∈ digitChars ∧ c.toNat - 48 < 10 := by
  simp only [maskChars, List.mem_cons, List.not_mem_nil, or_false] at hm
  rcases hm with rfl | rfl | rfl | rfl | rfl | rfl | rfl | rfl | rfl | rfl | rfl <;>
    first
      | exact ⟨by decide, by decide⟩
      | exact absurd (by decide) hF

theorem scanLoopF_total (probe : List Char → Verdict) (hp : probeOk probe)
    (pos : Nat) (mask : List Char)
    (recur : List Char → List String → Option (List String))
    (hlen : mask.length = 16) (hgood : goodMask mask) (hdb : digitsBelow pos mask)
    (hpos : pos ≤ 15)
    (hrec : pos < 15 → ∀ m d, m.length = 16 → goodMask m → digitsBelow (pos + 1) m →
        (recur m d).isSome = true) :
    ∀ (is : List Nat) (disc : List String), (∀ i ∈ is, i < 10) →
      (scanLoopF recur probe pos mask is disc).isSome = true := by
  intro is
  induction is with
  | nil => intro disc _; simp [scanLoopF]
  | cons i rest ih =>
      intro disc his
      have hi : i < 10 := his i (List.mem_cons_self i rest)
      have hsub : maskSubst mask pos i = mask.set pos (hexUpperDigit i) :=
        maskSubst_eq hgood hi
      have hrest : ∀ j ∈ rest, j < 10 := fun j hj => his j (List.mem_cons_of_mem i hj)
      have hm'len : (mask.set pos (hexUpperDigit i)).length = 16 := by
        simpa using hlen
      have hm'good : goodMask (mask.set pos (hexUpperDigit i)) :=
        goodMask_set hgood
          (digitChars_subset_maskChars (hexUpperDigit_mem_digitChars hi)) pos
      have hm'db : digitsBelow (pos + 1) (mask.set pos (hexUpperDigit i)) :=
        digitsBelow_subst hdb hi
      simp only [scanLoopF, hsub]
      cases hpv : probe (mask.set pos (hexUpperDigit i)) with
      | matched => exact ih _ hrest
      | collision =>
          rcases Nat.lt_or_ge pos 15 with hlt | hge
          · obtain ⟨d2, hd2⟩ := Option.isSome_iff_exists.mp
              (hrec hlt (mask.set pos (hexUpperDigit i)) disc hm'len hm'good hm'db)
            rw [hd2]
            exact ih d2 hrest
          · have hpos15 : pos = 15 := Nat.le_antisymm hpos hge
            have hfull : fullDigits (mask.set pos (hexUpperDigit i)) := by
              apply fullDigits_of_below hm'len
              intro j hj c hc
              rcases Nat.lt_or_ge j (pos + 1) with hj' | hj'
              · exact hm'db j hj' c hc
              · exact absurd hj (by omega)
            exact absurd hpv (hp _ hm'len hfull)
      | noReply => exact ih disc hrest

theorem scan_secondary_total (probe : List Char → Verdict) (hp : probeOk probe) :
    ∀ (fuel pos : Nat) (mask : List Char) (disc : List String),
      pos ≤ 15 → mask.length = 16 → goodMask mask → digitsBelow pos mask →
      16 - pos ≤ fuel →
      (scan_secondary_range probe fuel pos mask disc).isSome = true := by
  intro fuel
  induction fuel with
  | zero => intro pos mask disc hpos _ _ _ hfuel; omega
  | succ fuel ih =>
      intro pos mask disc hpos hlen hgood hdb hfuel
      have hplen : pos < mask.length := by omega
      obtain ⟨c, hc⟩ : ∃ c, mask[pos]? = some c :=
        ⟨mask.get ⟨pos, hplen⟩, by rw [List.getElem?_eq_getElem hplen]; rfl⟩
      have hcm : c ∈ maskChars := hgood c (by
        exact List.mem_iff_getElem?.mpr ⟨pos, hc⟩)
      simp only [scan_secondary_range, hc]
      by_cases hF : c.toUpper = 'F'
      · rw [if_pos hF]
        apply scanLoopF_total probe hp pos mask _ hlen hgood hdb hpos
        · intro hlt m d hl hg hdbm
          exact ih (pos + 1) m d (by omega) hl hg hdbm (by omega)
        · intro j hj
          simpa using List.mem_range.mp hj
      · rw [if_neg hF]
        have hdig := mask_digit_of_not_wild hcm hF
        by_cases hlt : pos < 15
        · rw [if_pos hlt]
          apply ih (pos + 1) mask disc (by omega) hlen hgood ?_ (by omega)
          intro j hj d hd
          rcases Nat.lt_or_ge j pos with hj' | hj'
          · exact hdb j hj' d hd
          · have hjp : j = pos := by omega
            subst hjp
            rw [hc] at hd
            cases hd
            exact hdig.1
        · rw [if_neg hlt]
          apply scanLoopF_total probe hp pos mask _ hlen hgood hdb hpos
          · intro hlt'
            exact absurd hlt' hlt
          · intro j hj
            simp only [List.mem_singleton] at hj
            subst hj
            exact hdig.2

/-- C7: under the claim's precondition on the probe oracle (a fully
instantiated 16-digit mask never yields a collision verdict), the
recursive secondary-address scan started at position `pos` of a 16-mask
whose instantiated positions are the ones below `pos` terminates within
`16 - pos` recursion levels (depth 16 from the root call, branching at
most 10 digits per wildcard position) and never accesses a mask position
beyond index 15: in the model both an out-of-fuel stop and an
out-of-range mask access return `none`, and the result is `some`. -/
theorem C7_theorem (probe : List Char → Verdict) (hp : probeOk probe)
    (pos : Nat) (mask : List Char) (disc : List String)
    (hpos : pos ≤ 15) (hlen : mask.length = 16) (hgood : goodMask mask)
    (hdb : digitsBelow pos mask) :
    (scan_secondary_range probe (16 - pos) pos mask disc).isSome = true :=
  scan_secondary_total probe hp (16 - pos) pos mask disc hpos hlen hgood hdb
    (Nat.le_refl _)

/-- C7, witness: the root scan call on the all-wildcard mask with a
silent bus terminates within 16 levels. -/
theorem C7_witness :
    (scan_secondary_range (fun _ => Verdict.noReply) (16 - 0) 0
        (List.replicate 16 'F') []).isSome = true :=
  C7_theorem (fun _ => Verdict.noReply) (fun m _ _ => by simp)
    0 (List.replicate 16 'F') [] (by decide) (by simp)
    (fun c hc => by rw [List.eq_of_mem_replicate hc]; decide)
    (fun i hi c _ => absurd hi (Nat.not_lt_zero i))

/-! ## Claim C8: device-state round trip through SQLite + JSON

`save_device_state` stores `json.dumps(state)` in the `device_states`
table (persistence.py lines 109-154) and `load_all_device_states` returns
`json.loads(state_json)` per row (lines 183-211); the table itself is the
durable database, so a "simulated restart" is reading the same table
value back.  The JSON layer is modelled with serializer `json_dumps` and
parser `json_loads` over `JValue` (objects and arrays keep Python's
insertion order, numbers are idealised as integers; strings are arbitrary
sequences of unicode scalars, escaped as `json.dumps` does with its
default `ensure_ascii=True`). -/

/-- Named characters, to keep quotes, backslashes and braces out of
character literals. -/
def quoteChar : Char := Char.ofNat 34

def backslashChar : Char := Char.ofNat 92

def lbraceChar : Char := Char.ofNat 123

def rbraceChar : Char := Char.ofNat 125

inductive JValue where
  | jnull
  | jbool (b : Bool)
  | jint (n : Int)
  | jstr (s : List Char)
  | jarr (xs : List JValue)
  | jobj (fields : List (List Char × JValue))

/-- Lowercase hexadecimal digit, as produced by Python's `%04x` formatting
inside `json.dumps` escapes. -/
def hexDigitL (i : Nat) : Char :=
  if i < 10 then Char.ofNat (48 + i) else Char.ofNat (87 + i)

/-- Four lowercase hex digits of `n < 0x10000`. -/
def hex4 (n : Nat) : List Char :=
  [hexDigitL (n / 4096 % 16), hexDigitL (n / 256 % 16),
   hexDigitL (n / 16 % 16), hexDigitL (n % 16)]

/-- `json.dumps` (ensure_ascii) escaping of one character: the two
self-escapes, the five short control escapes, `\uXXXX` for the remaining
characters outside 0x20-0x7e (with a surrogate pair above 0xFFFF), and
the character itself otherwise. -/
def escChar (c : Char) : List Char :=
  if c = quoteChar then [backslashChar, quoteChar]
  else if c = backslashChar then [backslashChar, backslashChar]
  else if c = Char.ofNat 10 then [backslashChar, 'n']
  else if c = Char.ofNat 9 then [backslashChar, 't']
  else if c = Char.ofNat 13 then [backslashChar, 'r']
  else if c = Char.ofNat 8 then [backslashChar, 'b']
  else if c = Char.ofNat 12 then [backslashChar, 'f']
  else if c.toNat < 32 ∨ 126 < c.toNat then
    if c.toNat < 65536 then backslashChar :: 'u' :: hex4 c.toNat
    else
      backslashChar :: 'u' :: hex4 (55296 + (c.toNat - 65536) / 1024) ++
        (backslashChar :: 'u' :: hex4 (56320 + (c.toNat - 65536) % 1024))
  else [c]

def escString : List Char → List Char
  | [] => []
  | c :: t => escChar c ++ escString t

/-- Decimal digits of `n`, most significant first (`str(n)` for a
non-negative int). -/
def natChars (n : Nat) : List Char :=
  if h : n < 10 then [Char.ofNat (48 + n)]
  else natChars (n / 10) ++ [Char.ofNat (48 + n % 10)]
decreasing_by exact Nat.div_lt_self (by omega) (by omega)

/-- `str(n)` for a Python int. -/
def intChars (n : Int) : List Char :=
  if n < 0 then '-' :: natChars (-n).toNat else natChars n.toNat

mutual
/-- `json.dumps` with its default separators `", "` and `": "`. -/
def jdump : JValue → List Char
  | .jnull => ['n', 'u', 'l', 'l']
  | .jbool true => ['t', 'r', 'u', 'e']
  | .jbool false => ['f', 'a', 'l', 's', 'e']
  | .jint n => intChars n
  | .jstr s => quoteChar :: escString s ++ [quoteChar]
  | .jarr xs => '[' :: jdumpArr xs ++ [']']
  | .jobj fs => lbraceChar :: jdumpObj fs ++ [rbraceChar]

def jdumpArr : List JValue → List Char
  | [] => []
  | [x] => jdump x
  | x :: y :: t => jdump x ++ ',' :: ' ' :: jdumpArr (y :: t)

def jdumpObj : List (List Char × JValue) → List Char
  | [] => []
  | [(k, v)] => quoteChar :: escString k ++ quoteChar :: ':' :: ' ' :: jdump v
  | (k, v) :: f :: t =>
      quoteChar :: escString k ++ quoteChar :: ':' :: ' ' :: jdump v ++
        ',' :: ' ' :: jdumpObj (f :: t)
end

theorem toNat_ofNat_valid {n : Nat} (h : n.isValidChar) : (Char.ofNat n).toNat = n := by
  rw [Char.ofNat, dif_pos h]
  rfl

theorem toNat_ofNat_lt {n : Nat} (h : n < 55296) : (Char.ofNat n).toNat = n :=
  toNat_ofNat_valid (Or.inl h)

theorem char_toNat_valid (c : Char) :
    c.toNat < 55296 ∨ (57343 < c.toNat ∧ c.toNat < 1114112) := c.valid

/-! Parser model of `json.loads`, specialised to the value subset of the
model (recursive descent; whitespace is skipped between tokens; a lone
surrogate escape is rejected, which `json.dumps` never emits). -/

def isDigitCh (c : Char) : Bool := 47 < c.toNat && c.toNat < 58

def isWsCh (c : Char) : Bool :=
  c = ' ' || c = Char.ofNat 9 || c = Char.ofNat 10 || c = Char.ofNat 13

def skipWs (s : List Char) : List Char := s.dropWhile isWsCh

def digitsVal (ds : List Char) : Nat := ds.foldl (fun a c => a * 10 + (c.toNat - 48)) 0

def parseNat (s : List Char) : Option (Nat × List Char) :=
  let ds := s.takeWhile isDigitCh
  if ds.isEmpty then none else some (digitsVal ds, s.drop ds.length)

def hexVal (c : Char) : Option Nat :=
  if 47 < c.toNat ∧ c.toNat < 58 then some (c.toNat - 48)
  else if 96 < c.toNat ∧ c.toNat < 103 then some (c.toNat - 87)
  else if 64 < c.toNat ∧ c.toNat < 71 then some (c.toNat - 55)
  else none

def parseHex4 : List Char → Option (Nat × List Char)
  | a :: b :: c :: d :: rest =>
    (match hexVal a, hexVal b, hexVal c, hexVal d with
     | some x, some y, some z, some w => some (x * 4096 + y * 256 + z * 16 + w, rest)
     | _, _, _, _ => none)
  | _ => none

/-- Escape table of the non-unicode JSON escapes accepted by the parser
(`json.loads` also accepts the escaped slash). -/
def escValue (e : Char) : Option Char :=
  if e = quoteChar then some quoteChar
  else if e = backslashChar then some backslashChar
  else if e = '/' then some '/'
  else if e = 'n' then some (Char.ofNat 10)
  else if e = 't' then some (Char.ofNat 9)
  else if e = 'r' then some (Char.ofNat 13)
  else if e = 'b' then some (Char.ofNat 8)
  else if e = 'f' then some (Char.ofNat 12)
  else none

/-- Decode what follows `\\u`: four hex digits, recombining a high/low
surrogate pair into one scalar; lone surrogates are rejected. -/
def parseUEsc (s : List Char) : Option (Char × List Char) :=
  match parseHex4 s with
  | none => none
  | some (n, rest3) =>
    if 55296 ≤ n ∧ n < 56320 then
      match rest3 with
      | bs :: u :: rest4 =>
        if bs = backslashChar ∧ u = 'u' then
          match parseHex4 rest4 with
          | none => none
          | some (m, rest5) =>
            if 56320 ≤ m ∧ m < 57344 then
              some (Char.ofNat (65536 + (n - 55296) * 1024 + (m - 56320)), rest5)
            else none
        else none
      | _ => none
    else if 56320 ≤ n ∧ n < 57344 then none
    else some (Char.ofNat n, rest3)

/-- Body of a JSON string after the opening quote, with fuel (one unit per
produced character). -/
def parseStrBody : Nat → List Char → Option (List Char × List Char)
  | 0, _ => none
  | fuel + 1, s =>
    match s with
    | [] => none
    | c :: rest =>
      if c = quoteChar then some ([], rest)
      else if c = backslashChar then
        match rest with
        | [] => none
        | e :: rest2 =>
          match escValue e with
          | some ch => (parseStrBody fuel rest2).map (fun r => (ch :: r.1, r.2))
          | none =>
            if e = 'u' then
              match parseUEsc rest2 with
              | none => none
              | some (ch, rest3) =>
                  (parseStrBody fuel rest3).map (fun r => (ch :: r.1, r.2))
            else none
      else (parseStrBody fuel rest).map (fun r => (c :: r.1, r.2))

mutual
def parseValue : Nat → List Char → Option (JValue × List Char)
  | 0, _ => none
  | fuel + 1, s =>
    match s with
    | [] => none
    | c :: rest =>
      if c = 'n' then
        (match rest with
         | 'u' :: 'l' :: 'l' :: r => some (.jnull, r)
         | _ => none)
      else if c = 't' then
        (match rest with
         | 'r' :: 'u' :: 'e' :: r => some (.jbool true, r)
         | _ => none)
      else if c = 'f' then
        (match rest with
         | 'a' :: 'l' :: 's' :: 'e' :: r => some (.jbool false, r)
         | _ => none)
      else if c = quoteChar then
        (parseStrBody (rest.length + 1) rest).map (fun r => (.jstr r.1, r.2))
      else if c = '[' then
        (match skipWs rest with
         | [] => none
         | d :: r2 =>
           if d = ']' then some (.jarr [], r2)
           else
             match parseElems fuel (d :: r2) with
             | some (xs, r3) => some (.jarr xs, r3)
             | none => none)
      else if c = lbraceChar then
        (match skipWs rest with
         | [] => none
         | d :: r2 =>
           if d = rbraceChar then some (.jobj [], r2)
           else
             match parseFields fuel (d :: r2) with
             | some (fs, r3) => some (.jobj fs, r3)
             | none => none)
      else if c = '-' then
        (match parseNat rest with
         | some (m, r) => some (.jint (-(m : Int)), r)
         | none => none)
      else if isDigitCh c then
        (match parseNat (c :: rest) with
         | some (m, r) => some (.jint (m : Int), r)
         | none => none)
      else none

def parseElems : Nat → List Char → Option (List JValue × List Char)
  | 0, _ => none
  | fuel + 1, s =>
    match parseValue fuel s with
    | none => none
    | some (v, r1) =>
      match skipWs r1 with
      | [] => none
      | d :: r3 =>
        if d = ']' then some ([v], r3)
        else if d = ',' then
          (match parseElems fuel (skipWs r3) with
           | some (vs, r4) => some (v :: vs, r4)
           | none => none)
        else none

def parseFields : Nat → List Char → Option (List (List Char × JValue) × List Char)
  | 0, _ => none
  | fuel + 1, s =>
    match s with
    | [] => none
    | c :: rest =>
      if c = quoteChar then
        match parseStrBody (rest.length + 1) rest with
        | none => none
        | some (k, r1) =>
          match skipWs r1 with
          | [] => none
          | d :: r3 =>
            if d = ':' then
              match parseValue fuel (skipWs r3) with
              | none => none
              | some (v, r4) =>
                match skipWs r4 with
                | [] => none
                | e :: r6 =>
                  if e = rbraceChar then some ([(k, v)], r6)
                  else if e = ',' then
                    (match parseFields fuel (skipWs r6) with
                     | some (fs, r7) => some ((k, v) :: fs, r7)
                     | none => none)
                  else none
            else none
      else none
end

def json_dumps (v : JValue) : List Char := jdump v

def json_loads (s : List Char) : Option JValue :=
  match parseValue (s.length + 1) (skipWs s) with
  | some (v, r) => if skipWs r = [] then some v else none
  | none => none

/-! Round-trip lemmas: the parser inverts the serializer. -/

theorem escChar_ne_nil (c : Char) : escChar c ≠ [] := by
  unfold escChar
  split_ifs <;> simp

theorem escString_length_ge (s : List Char) : s.length ≤ (escString s).length := by
  induction s with
  | nil => simp [escString]
  | cons c t ih =>
      have h1 : 1 ≤ (escChar c).length :=
        List.length_pos.mpr (escChar_ne_nil c)
      simp only [escString, List.length_append, List.length_cons]
      omega

theorem natChars_ne_nil (n : Nat) : natChars n ≠ [] := by
  unfold natChars
  split <;> simp

theorem natChars_digits (n : Nat) : ∀ c ∈ natChars n, isDigitCh c = true := by
  induction n using Nat.strong_induction_on with
  | _ n ih =>
      unfold natChars
      split
      · next h =>
          intro c hc
          simp only [List.mem_singleton] at hc
          subst hc
          simp only [isDigitCh, toNat_ofNat_lt (show 48 + n < 55296 by omega)]
          simp only [Bool.and_eq_true, decide_eq_true_eq]
          omega
      · next h =>
          intro c hc
          rcases List.mem_append.mp hc with h1 | h1
          · exact ih (n / 10) (Nat.div_lt_self (by omega) (by omega)) c h1
          · simp only [List.mem_singleton] at h1
            subst h1
            simp only [isDigitCh,
              toNat_ofNat_lt (show 48 + n % 10 < 55296 from by
                have := Nat.mod_lt n (show 0 < 10 by omega); omega)]
            simp only [Bool.and_eq_true, decide_eq_true_eq]
            have := Nat.mod_lt n (show 0 < 10 by omega)
            omega

theorem digitsVal_append_singleton (ds : List Char) (d : Char) :
    digitsVal (ds ++ [d]) = digitsVal ds * 10 + (d.toNat - 48) := by
  simp [digitsVal, List.foldl_append]

theorem digitsVal_natChars (n : Nat) : digitsVal (natChars n) = n := by
  induction n using Nat.strong_induction_on with
  | _ n ih =>
      unfold natChars
      split
      · next h =>
          simp [digitsVal, toNat_ofNat_lt (show 48 + n < 55296 by omega)]
      · next h =>
          rw [digitsVal_append_singleton,
            ih (n / 10) (Nat.div_lt_self (by omega) (by omega)),
            toNat_ofNat_lt (show 48 + n % 10 < 55296 from by
              have := Nat.mod_lt n (show 0 < 10 by omega); omega)]
          omega

theorem takeWhile_all_append {p : Char → Bool} {l r : List Char}
    (hl : ∀ c ∈ l, p c = true) (hr : ∀ c, r.head? = some c → p c = false) :
    (l ++ r).takeWhile p = l := by
  induction l with
  | nil =>
      cases r with
      | nil => rfl
      | cons c t => simp [List.takeWhile_cons, hr c rfl]
  | cons c t ih =>
      simp [List.takeWhile_cons, hl c (List.mem_cons_self c t),
        ih (fun x hx => hl x (List.mem_cons_of_mem c hx))]

theorem parseNat_round (n : Nat) (rest : List Char)
    (hr : ∀ c, rest.head? = some c → isDigitCh c = false) :
    parseNat (natChars n ++ rest) = some (n, rest) := by
  unfold parseNat
  simp only [takeWhile_all_append (natChars_digits n) hr]
  rw [if_neg (by simp [natChars_ne_nil n])]
  rw [List.drop_left, digitsVal_natChars]

theorem hexVal_hexDigitL {i : Nat} (h : i < 16) : hexVal (hexDigitL i) = some i := by
  unfold hexVal hexDigitL
  by_cases h10 : i < 10
  · rw [if_pos h10]
    simp only [toNat_ofNat_lt (show 48 + i < 55296 by omega)]
    rw [if_pos (by omega)]
    simp only [Option.some.injEq]
    omega
  · rw [if_neg h10]
    simp only [toNat_ofNat_lt (show 87 + i < 55296 by omega)]
    rw [if_neg (by omega), if_pos (by omega)]
    simp only [Option.some.injEq]
    omega

theorem parseHex4_round (n : Nat) (h : n < 65536) (rest : List Char) :
    parseHex4 (hex4 n ++ rest) = some (n, rest) := by
  simp only [hex4, List.cons_append, List.nil_append, parseHex4]
  rw [hexVal_hexDigitL (Nat.mod_lt _ (by omega)),
    hexVal_hexDigitL (Nat.mod_lt _ (by omega)),
    hexVal_hexDigitL (Nat.mod_lt _ (by omega)),
    hexVal_hexDigitL (Nat.mod_lt _ (by omega))]
  simp only [Option.some.injEq, Prod.mk.injEq]
  exact ⟨by omega, trivial⟩


theorem psb_step_close (f : Nat) (rest : List Char) :
    parseStrBody (f + 1) (quoteChar :: rest) = some ([], rest) := by
  simp [parseStrBody]

theorem psb_step_lit (f : Nat) (c : Char) (rest : List Char)
    (h1 : c ≠ quoteChar) (h2 : c ≠ backslashChar) :
    parseStrBody (f + 1) (c :: rest) =
      (parseStrBody f rest).map (fun r => (c :: r.1, r.2)) := by
  simp [parseStrBody, h1, h2]

theorem psb_step_esc (f : Nat) (e ch : Char) (rest : List Char)
    (he : escValue e = some ch) :
    parseStrBody (f + 1) (backslashChar :: e :: rest) =
      (parseStrBody f rest).map (fun r => (ch :: r.1, r.2)) := by
  simp [parseStrBody, show backslashChar ≠ quoteChar from by decide, he]

theorem psb_step_u (f : Nat) (rest2 rest3 : List Char) (ch : Char)
    (hu : parseUEsc rest2 = some (ch, rest3)) :
    parseStrBody (f + 1) (backslashChar :: 'u' :: rest2) =
      (parseStrBody f rest3).map (fun r => (ch :: r.1, r.2)) := by
  simp [parseStrBody, show backslashChar ≠ quoteChar from by decide,
    show escValue 'u' = none from by decide, hu]

theorem parseUEsc_single (n : Nat) (rest3 : List Char) (h1 : n < 65536)
    (h2 : ¬(55296 ≤ n ∧ n < 56320)) (h3 : ¬(56320 ≤ n ∧ n < 57344)) :
    parseUEsc (hex4 n ++ rest3) = some (Char.ofNat n, rest3) := by
  unfold parseUEsc
  rw [parseHex4_round n h1 rest3]
  simp [h2, h3]

theorem parseUEsc_pair0 (m k : Nat) (rest3 : List Char)
    (h1 : 55296 ≤ m) (hm2 : m < 56320) (h3 : 56320 ≤ k) (h4 : k < 57344) :
    parseUEsc (hex4 m ++ (backslashChar :: 'u' :: (hex4 k ++ rest3))) =
      some (Char.ofNat (65536 + (m - 55296) * 1024 + (k - 56320)), rest3) := by
  unfold parseUEsc
  rw [parseHex4_round m (by omega)]
  dsimp only
  rw [if_pos ⟨h1, hm2⟩]
  rw [if_pos (⟨rfl, rfl⟩ : backslashChar = backslashChar ∧ ('u' : Char) = 'u')]
  rw [parseHex4_round k (by omega) rest3]
  dsimp only
  rw [if_pos ⟨h3, h4⟩]

theorem parseUEsc_pair (n : Nat) (rest3 : List Char)
    (h1 : 65536 ≤ n) (h2 : n < 1114112) :
    parseUEsc (hex4 (55296 + (n - 65536) / 1024) ++
        (backslashChar :: 'u' :: (hex4 (56320 + (n - 65536) % 1024) ++ rest3))) =
      some (Char.ofNat n, rest3) := by
  have h := parseUEsc_pair0 (55296 + (n - 65536) / 1024) (56320 + (n - 65536) % 1024)
    rest3 (by omega) (by omega) (by omega) (by omega)
  rw [h]
  have harith : 65536 + (55296 + (n - 65536) / 1024 - 55296) * 1024 +
      (56320 + (n - 65536) % 1024 - 56320) = n := by omega
  rw [harith]

theorem parseStrBody_round (s : List Char) : ∀ (fuel : Nat) (r : List Char),
    s.length + 1 ≤ fuel →
    parseStrBody fuel (escString s ++ quoteChar :: r) = some (s, r) := by
  induction s with
  | nil =>
      intro fuel r hf
      obtain ⟨f, rfl⟩ : ∃ f, fuel = f + 1 := ⟨fuel - 1, by omega⟩
      simpa [escString] using psb_step_close f r
  | cons c t ih =>
      intro fuel r hf
      obtain ⟨f, rfl⟩ : ∃ f, fuel = f + 1 := ⟨fuel - 1, by omega⟩
      have hf' : t.length + 1 ≤ f := by
        simp only [List.length_cons] at hf
        omega
      have hrec := ih f r hf'
      simp only [escString, List.append_assoc]
      by_cases h1 : c = quoteChar
      · subst h1
        rw [show escChar quoteChar = [backslashChar, quoteChar] from by decide]
        simp only [List.cons_append, List.nil_append]
        rw [psb_step_esc f quoteChar quoteChar _ (by decide), hrec]
        rfl
      · by_cases h2 : c = backslashChar
        · subst h2
          rw [show escChar backslashChar = [backslashChar, backslashChar] from by decide]
          simp only [List.cons_append, List.nil_append]
          rw [psb_step_esc f backslashChar backslashChar _ (by decide), hrec]
          rfl
        · by_cases h3 : c = Char.ofNat 10
          · subst h3
            rw [show escChar (Char.ofNat 10) = [backslashChar, 'n'] from by decide]
            simp only [List.cons_append, List.nil_append]
            rw [psb_step_esc f 'n' (Char.ofNat 10) _ (by decide), hrec]
            rfl
          · by_cases h4 : c = Char.ofNat 9
            · subst h4
              rw [show escChar (Char.ofNat 9) = [backslashChar, 't'] from by decide]
              simp only [List.cons_append, List.nil_append]
              rw [psb_step_esc f 't' (Char.ofNat 9) _ (by decide), hrec]
              rfl
            · by_cases h5 : c = Char.ofNat 13
              · subst h5
                rw [show escChar (Char.ofNat 13) = [backslashChar, 'r'] from by decide]
                simp only [List.cons_append, List.nil_append]
                rw [psb_step_esc f 'r' (Char.ofNat 13) _ (by decide), hrec]
                rfl
              · by_cases h6 : c = Char.ofNat 8
                · subst h6
                  rw [show escChar (Char.ofNat 8) = [backslashChar, 'b'] from by decide]
                  simp only [List.cons_append, List.nil_append]
                  rw [psb_step_esc f 'b' (Char.ofNat 8) _ (by decide), hrec]
                  rfl
                · by_cases h7 : c = Char.ofNat 12
                  · subst h7
                    rw [show escChar (Char.ofNat 12) =
                        [backslashChar, 'f'] from by decide]
                    simp only [List.cons_append, List.nil_append]
                    rw [psb_step_esc f 'f' (Char.ofNat 12) _ (by decide), hrec]
                    rfl
                  · by_cases h8 : c.toNat < 32 ∨ 126 < c.toNat
                    · by_cases h9 : c.toNat < 65536
                      · rw [show escChar c =
                            backslashChar :: 'u' :: hex4 c.toNat from by
                          unfold escChar
                          rw [if_neg h1, if_neg h2, if_neg h3, if_neg h4, if_neg h5,
                            if_neg h6, if_neg h7, if_pos h8, if_pos h9]]
                        simp only [List.cons_append]
                        rw [psb_step_u f _ _ (Char.ofNat c.toNat)
                          (parseUEsc_single c.toNat _ h9
                            (by rcases char_toNat_valid c with h | h <;> omega)
                            (by rcases char_toNat_valid c with h | h <;> omega))]
                        rw [hrec]
                        simp
                      · rw [show escChar c =
                            backslashChar :: 'u' ::
                              (hex4 (55296 + (c.toNat - 65536) / 1024) ++
                              (backslashChar :: 'u' ::
                                hex4 (56320 + (c.toNat - 65536) % 1024))) from by
                          unfold escChar
                          rw [if_neg h1, if_neg h2, if_neg h3, if_neg h4, if_neg h5,
                            if_neg h6, if_neg h7, if_pos h8, if_neg h9]
                          simp [List.append_assoc]]
                        simp only [List.cons_append, List.append_assoc]
                        rw [psb_step_u f _ _ (Char.ofNat c.toNat)
                          (parseUEsc_pair c.toNat _ (by omega)
                            (by rcases char_toNat_valid c with h | h <;> omega))]
                        rw [hrec]
                        simp
                    · rw [show escChar c = [c] from by
                        unfold escChar
                        rw [if_neg h1, if_neg h2, if_neg h3, if_neg h4, if_neg h5,
                          if_neg h6, if_neg h7, if_neg h8]]
                      simp only [List.cons_append, List.nil_append]
                      rw [psb_step_lit f c _ h1 h2, hrec]
                      rfl

mutual
/-- Fuel sufficient for `parseValue` on the dump of `v` (the parser
spends one unit per `parseValue`/`parseElems`/`parseFields` call). -/
def jfuel : JValue → Nat
  | .jarr (x :: xs) => 1 + elemsFuel x xs
  | .jobj (f :: fs) => 1 + fieldsFuel f fs
  | _ => 1
termination_by v => sizeOf v

def elemsFuel : JValue → List JValue → Nat
  | x, [] => 1 + jfuel x
  | x, y :: t => 1 + max (jfuel x) (elemsFuel y t)
termination_by x xs => 1 + sizeOf x + sizeOf xs

def fieldsFuel : (List Char × JValue) → List (List Char × JValue) → Nat
  | (_, v), [] => 1 + jfuel v
  | (_, v), g :: t => 1 + max (jfuel v) (fieldsFuel g t)
termination_by f fs => 1 + sizeOf f + sizeOf fs
end

theorem jfuel_pos (v : JValue) : 1 ≤ jfuel v := by
  cases v with
  | jarr xs => cases xs <;> simp [jfuel]
  | jobj fs => cases fs <;> simp [jfuel]
  | jnull => simp [jfuel]
  | jbool b => simp [jfuel]
  | jint n => simp [jfuel]
  | jstr s => simp [jfuel]

theorem not_ws_of_digit {c : Char} (h : isDigitCh c = true) : isWsCh c = false := by
  have h1 : c ≠ ' ' := fun e => by subst e; exact absurd h (by decide)
  have h2 : c ≠ Char.ofNat 9 := fun e => by subst e; exact absurd h (by decide)
  have h3 : c ≠ Char.ofNat 10 := fun e => by subst e; exact absurd h (by decide)
  have h4 : c ≠ Char.ofNat 13 := fun e => by subst e; exact absurd h (by decide)
  simp [isWsCh, h1, h2, h3, h4]

theorem digit_not_delim {c : Char} (h : isDigitCh c = true) :
    c ≠ ']' ∧ c ≠ rbraceChar ∧ c ≠ ',' ∧ c ≠ ':' := by
  refine ⟨?_, ?_, ?_, ?_⟩ <;> (intro e; subst e; exact absurd h (by decide))

theorem digit_dispatch {c : Char} (h : isDigitCh c = true) :
    c ≠ 'n' ∧ c ≠ 't' ∧ c ≠ 'f' ∧ c ≠ quoteChar ∧ c ≠ '[' ∧ c ≠ lbraceChar ∧
      c ≠ '-' := by
  refine ⟨?_, ?_, ?_, ?_, ?_, ?_, ?_⟩ <;> (intro e; subst e; exact absurd h (by decide))

theorem natChars_head (n : Nat) :
    ∃ c t, natChars n = c :: t ∧ isDigitCh c = true := by
  have hne := natChars_ne_nil n
  have hd := natChars_digits n
  cases hh : natChars n with
  | nil => exact absurd hh hne
  | cons c t => exact ⟨c, t, rfl, hd c (hh ▸ List.mem_cons_self c t)⟩

theorem jdump_head (v : JValue) :
    ∃ c t, jdump v = c :: t ∧ isWsCh c = false ∧ c ≠ ']' ∧ c ≠ rbraceChar ∧
      c ≠ ',' := by
  cases v with
  | jnull => exact ⟨'n', _, rfl, by decide, by decide, by decide, by decide⟩
  | jbool b =>
      cases b
      · exact ⟨'f', _, rfl, by decide, by decide, by decide, by decide⟩
      · exact ⟨'t', _, rfl, by decide, by decide, by decide, by decide⟩
  | jint n =>
      show ∃ c t, intChars n = c :: t ∧ _
      unfold intChars
      split
      · exact ⟨'-', _, rfl, by decide, by decide, by decide, by decide⟩
      · obtain ⟨c, t, hh, hd⟩ := natChars_head n.toNat
        refine ⟨c, t, hh, not_ws_of_digit hd, ?_, ?_, ?_⟩ <;>
          exact (by
            obtain ⟨d1, d2, d3, d4⟩ := digit_not_delim hd
            first
              | exact d1
              | exact d2
              | exact d3)
  | jstr s => exact ⟨quoteChar, _, rfl, by decide, by decide, by decide, by decide⟩
  | jarr xs => exact ⟨'[', _, rfl, by decide, by decide, by decide, by decide⟩
  | jobj fs => exact ⟨lbraceChar, _, rfl, by decide, by decide, by decide, by decide⟩

theorem skipWs_cons_not_ws {c : Char} (r : List Char) (h : isWsCh c = false) :
    skipWs (c :: r) = c :: r := by
  simp [skipWs, List.dropWhile_cons, h]

theorem skipWs_space (r : List Char) : skipWs (' ' :: r) = skipWs r := by
  simp [skipWs, List.dropWhile_cons, show isWsCh ' ' = true from by decide]

theorem elemsFuel_pos (x : JValue) (xs : List JValue) : 1 ≤ elemsFuel x xs := by
  cases xs <;> simp [elemsFuel]

theorem fieldsFuel_pos (f : List Char × JValue) (fs : List (List Char × JValue)) :
    1 ≤ fieldsFuel f fs := by
  obtain ⟨k, v⟩ := f
  cases fs <;> simp [fieldsFuel]

theorem jdumpArr_cons (x : JValue) (xs : List JValue) (r : List Char) :
    ∃ c s1, jdumpArr (x :: xs) ++ r = c :: s1 ∧ isWsCh c = false ∧ c ≠ ']' ∧
      c ≠ rbraceChar := by
  obtain ⟨c, t1, hx, hws, hb1, hb2, _⟩ := jdump_head x
  cases xs with
  | nil =>
      refine ⟨c, t1 ++ r, ?_, hws, hb1, hb2⟩
      rw [show jdumpArr [x] = jdump x from rfl, hx]
      simp
  | cons y t =>
      refine ⟨c, t1 ++ (',' :: ' ' :: jdumpArr (y :: t)) ++ r, ?_, hws, hb1, hb2⟩
      rw [show jdumpArr (x :: y :: t) = jdump x ++ ',' :: ' ' :: jdumpArr (y :: t)
        from rfl, hx]
      simp

theorem jdumpObj_cons (f0 : List Char × JValue) (fs : List (List Char × JValue))
    (r : List Char) :
    ∃ s1, jdumpObj (f0 :: fs) ++ r = quoteChar :: s1 := by
  obtain ⟨k, v⟩ := f0
  cases fs with
  | nil =>
      refine ⟨escString k ++ quoteChar :: ':' :: ' ' :: jdump v ++ r, ?_⟩
      rw [show jdumpObj [(k, v)] =
        quoteChar :: escString k ++ quoteChar :: ':' :: ' ' :: jdump v from rfl]
      simp
  | cons g t =>
      refine ⟨escString k ++ quoteChar :: ':' :: ' ' :: jdump v ++
        ',' :: ' ' :: jdumpObj (g :: t) ++ r, ?_⟩
      rw [show jdumpObj ((k, v) :: g :: t) =
        quoteChar :: escString k ++ quoteChar :: ':' :: ' ' :: jdump v ++
          ',' :: ' ' :: jdumpObj (g :: t) from rfl]
      simp

theorem pv_null (g : Nat) (r : List Char) :
    parseValue (g + 1) ('n' :: 'u' :: 'l' :: 'l' :: r) = some (.jnull, r) := by
  simp [parseValue]

theorem pv_true (g : Nat) (r : List Char) :
    parseValue (g + 1) ('t' :: 'r' :: 'u' :: 'e' :: r) = some (.jbool true, r) := by
  simp [parseValue, show ('t' : Char) ≠ 'n' from by decide]

theorem pv_false (g : Nat) (r : List Char) :
    parseValue (g + 1) ('f' :: 'a' :: 'l' :: 's' :: 'e' :: r) =
      some (.jbool false, r) := by
  simp [parseValue, show ('f' : Char) ≠ 'n' from by decide,
    show ('f' : Char) ≠ 't' from by decide]

theorem pv_str (g : Nat) (s : List Char) :
    parseValue (g + 1) (quoteChar :: s) =
      (parseStrBody (s.length + 1) s).map (fun r => (.jstr r.1, r.2)) := by
  simp [parseValue, show quoteChar ≠ 'n' from by decide,
    show quoteChar ≠ 't' from by decide, show quoteChar ≠ 'f' from by decide]

theorem pv_arr_empty (g : Nat) (s r : List Char) (hs : skipWs s = ']' :: r) :
    parseValue (g + 1) ('[' :: s) = some (.jarr [], r) := by
  simp [parseValue, show ('[' : Char) ≠ 'n' from by decide,
    show ('[' : Char) ≠ 't' from by decide, show ('[' : Char) ≠ 'f' from by decide,
    show ('[' : Char) ≠ quoteChar from by decide, hs]

theorem pv_arr_cons (g : Nat) (s : List Char) (d : Char) (r2 : List Char)
    (xs : List JValue) (r3 : List Char) (hs : skipWs s = d :: r2) (hd : d ≠ ']')
    (hp : parseElems g (d :: r2) = some (xs, r3)) :
    parseValue (g + 1) ('[' :: s) = some (.jarr xs, r3) := by
  simp [parseValue, show ('[' : Char) ≠ 'n' from by decide,
    show ('[' : Char) ≠ 't' from by decide, show ('[' : Char) ≠ 'f' from by decide,
    show ('[' : Char) ≠ quoteChar from by decide, hs, hd, hp]

theorem pv_obj_empty (g : Nat) (s r : List Char) (hs : skipWs s = rbraceChar :: r) :
    parseValue (g + 1) (lbraceChar :: s) = some (.jobj [], r) := by
  simp [parseValue, show lbraceChar ≠ 'n' from by decide,
    show lbraceChar ≠ 't' from by decide, show lbraceChar ≠ 'f' from by decide,
    show lbraceChar ≠ quoteChar from by decide,
    show lbraceChar ≠ '[' from by decide, hs]

theorem pv_obj_cons (g : Nat) (s : List Char) (d : Char) (r2 : List Char)
    (fs : List (List Char × JValue)) (r3 : List Char) (hs : skipWs s = d :: r2)
    (hd : d ≠ rbraceChar) (hp : parseFields g (d :: r2) = some (fs, r3)) :
    parseValue (g + 1) (lbraceChar :: s) = some (.jobj fs, r3) := by
  simp [parseValue, show lbraceChar ≠ 'n' from by decide,
    show lbraceChar ≠ 't' from by decide, show lbraceChar ≠ 'f' from by decide,
    show lbraceChar ≠ quoteChar from by decide,
    show lbraceChar ≠ '[' from by decide, hs, hd, hp]

theorem pv_int_neg (g : Nat) (s : List Char) (m : Nat) (r : List Char)
    (hp : parseNat s = some (m, r)) :
    parseValue (g + 1) ('-' :: s) = some (.jint (-(m : Int)), r) := by
  simp [parseValue, show ('-' : Char) ≠ 'n' from by decide,
    show ('-' : Char) ≠ 't' from by decide, show ('-' : Char) ≠ 'f' from by decide,
    show ('-' : Char) ≠ quoteChar from by decide,
    show ('-' : Char) ≠ '[' from by decide,
    show ('-' : Char) ≠ lbraceChar from by decide, hp]

theorem pv_int_pos (g : Nat) (c : Char) (s : List Char) (m : Nat) (r : List Char)
    (hc : isDigitCh c = true) (hp : parseNat (c :: s) = some (m, r)) :
    parseValue (g + 1) (c :: s) = some (.jint (m : Int), r) := by
  obtain ⟨d1, d2, d3, d4, d5, d6, d7⟩ := digit_dispatch hc
  simp [parseValue, d1, d2, d3, d4, d5, d6, d7, hc, hp]

theorem pe_last (g : Nat) (s : List Char) (v : JValue) (r1 r3 : List Char)
    (hv : parseValue g s = some (v, r1)) (hw : skipWs r1 = ']' :: r3) :
    parseElems (g + 1) s = some ([v], r3) := by
  simp [parseElems, hv, hw]

theorem pe_cons (g : Nat) (s : List Char) (v : JValue) (r1 r3 : List Char)
    (vs : List JValue) (r4 : List Char)
    (hv : parseValue g s = some (v, r1)) (hw : skipWs r1 = ',' :: r3)
    (hp : parseElems g (skipWs r3) = some (vs, r4)) :
    parseElems (g + 1) s = some (v :: vs, r4) := by
  simp [parseElems, hv, hw, show (',' : Char) ≠ ']' from by decide, hp]

theorem pf_last (g : Nat) (rest : List Char) (k : List Char) (r1 : List Char)
    (r3 : List Char) (v : JValue) (r4 r6 : List Char)
    (hk : parseStrBody (rest.length + 1) rest = some (k, r1))
    (hw1 : skipWs r1 = ':' :: r3)
    (hv : parseValue g (skipWs r3) = some (v, r4))
    (hw2 : skipWs r4 = rbraceChar :: r6) :
    parseFields (g + 1) (quoteChar :: rest) = some ([(k, v)], r6) := by
  simp [parseFields, hk, hw1, hv, hw2]

theorem pf_cons (g : Nat) (rest : List Char) (k : List Char) (r1 : List Char)
    (r3 : List Char) (v : JValue) (r4 r6 : List Char)
    (fs : List (List Char × JValue)) (r7 : List Char)
    (hk : parseStrBody (rest.length + 1) rest = some (k, r1))
    (hw1 : skipWs r1 = ':' :: r3)
    (hv : parseValue g (skipWs r3) = some (v, r4))
    (hw2 : skipWs r4 = ',' :: r6)
    (hp : parseFields g (skipWs r6) = some (fs, r7)) :
    parseFields (g + 1) (quoteChar :: rest) = some ((k, v) :: fs, r7) := by
  simp [parseFields, hk, hw1, hv, hw2,
    show (',' : Char) ≠ rbraceChar from by decide, hp]

theorem parse_round_all : ∀ (fuel : Nat),
    (∀ (v : JValue) (rest : List Char), jfuel v ≤ fuel →
      (∀ c, rest.head? = some c → isDigitCh c = false) →
      parseValue fuel (jdump v ++ rest) = some (v, rest))
  ∧ (∀ (x : JValue) (xs : List JValue) (rest : List Char), elemsFuel x xs ≤ fuel →
      (∀ c, rest.head? = some c → isDigitCh c = false) →
      parseElems fuel (jdumpArr (x :: xs) ++ ']' :: rest) = some (x :: xs, rest))
  ∧ (∀ (f0 : List Char × JValue) (fs : List (List Char × JValue)) (rest : List Char),
      fieldsFuel f0 fs ≤ fuel →
      (∀ c, rest.head? = some c → isDigitCh c = false) →
      parseFields fuel (jdumpObj (f0 :: fs) ++ rbraceChar :: rest) =
        some (f0 :: fs, rest)) := by
  intro fuel
  induction fuel using Nat.strong_induction_on with
  | _ fuel ih =>
  refine ⟨?_, ?_, ?_⟩
  · intro v rest hfuel hrest
    obtain ⟨g, rfl⟩ : ∃ g, fuel = g + 1 :=
      ⟨fuel - 1, by have := jfuel_pos v; omega⟩
    cases v with
    | jnull => exact pv_null g rest
    | jbool b =>
        cases b
        · exact pv_false g rest
        · exact pv_true g rest
    | jint n =>
        by_cases hn : n < 0
        · have hj : jdump (.jint n) = '-' :: natChars (-n).toNat := by
            show intChars n = _
            unfold intChars
            rw [if_pos hn]
          rw [hj, List.cons_append,
            pv_int_neg g _ (-n).toNat rest (parseNat_round _ rest hrest)]
          have h2 : ((-n).toNat : Int) = -n := Int.toNat_of_nonneg (by omega)
          rw [h2]
          simp
        · obtain ⟨c0, t0, h0, hd0⟩ := natChars_head n.toNat
          have hj : jdump (.jint n) = natChars n.toNat := by
            show intChars n = _
            unfold intChars
            rw [if_neg hn]
          have hp : parseNat (c0 :: (t0 ++ rest)) = some (n.toNat, rest) := by
            rw [← List.cons_append, ← h0]
            exact parseNat_round n.toNat rest hrest
          rw [hj, h0, List.cons_append,
            pv_int_pos g c0 (t0 ++ rest) n.toNat rest hd0 hp,
            Int.toNat_of_nonneg (by omega)]
    | jstr s =>
        have hshape : jdump (.jstr s) ++ rest =
            quoteChar :: (escString s ++ quoteChar :: rest) := by
          show (quoteChar :: escString s ++ [quoteChar]) ++ rest = _
          simp
        rw [hshape, pv_str g _,
          parseStrBody_round s _ rest (by
            have := escString_length_ge s
            simp only [List.length_append, List.length_cons]
            omega)]
        rfl
    | jarr xs =>
        cases xs with
        | nil =>
            exact pv_arr_empty g (']' :: rest) rest
              (skipWs_cons_not_ws rest (by decide))
        | cons x xs' =>
            have hfe : elemsFuel x xs' ≤ g := by
              have he : jfuel (.jarr (x :: xs')) = 1 + elemsFuel x xs' := by
                simp [jfuel]
              omega
            obtain ⟨c1, s1, hs1, hws1, hb1, _⟩ := jdumpArr_cons x xs' (']' :: rest)
            have hmain : parseElems g (c1 :: s1) = some (x :: xs', rest) := by
              rw [← hs1]
              exact (ih g (Nat.lt_succ_self g)).2.1 x xs' rest hfe hrest
            have hgoal : jdump (.jarr (x :: xs')) ++ rest =
                '[' :: (jdumpArr (x :: xs') ++ ']' :: rest) := by
              show ('[' :: jdumpArr (x :: xs') ++ [']']) ++ rest = _
              simp
            rw [hgoal]
            exact pv_arr_cons g _ c1 s1 (x :: xs') rest
              (by rw [hs1]; exact skipWs_cons_not_ws s1 hws1) hb1 hmain
    | jobj fs =>
        cases fs with
        | nil =>
            exact pv_obj_empty g (rbraceChar :: rest) rest
              (skipWs_cons_not_ws rest (by decide))
        | cons f0 fs' =>
            have hfe : fieldsFuel f0 fs' ≤ g := by
              have he : jfuel (.jobj (f0 :: fs')) = 1 + fieldsFuel f0 fs' := by
                simp [jfuel]
              omega
            obtain ⟨s1, hs1⟩ := jdumpObj_cons f0 fs' (rbraceChar :: rest)
            have hmain : parseFields g (quoteChar :: s1) = some (f0 :: fs', rest) := by
              rw [← hs1]
              exact (ih g (Nat.lt_succ_self g)).2.2 f0 fs' rest hfe hrest
            have hgoal : jdump (.jobj (f0 :: fs')) ++ rest =
                lbraceChar :: (jdumpObj (f0 :: fs') ++ rbraceChar :: rest) := by
              show (lbraceChar :: jdumpObj (f0 :: fs') ++ [rbraceChar]) ++ rest = _
              simp
            rw [hgoal]
            exact pv_obj_cons g _ quoteChar s1 (f0 :: fs') rest
              (by rw [hs1]; exact skipWs_cons_not_ws s1 (by decide)) (by decide) hmain
  · intro x xs rest hfuel hrest
    obtain ⟨g, rfl⟩ : ∃ g, fuel = g + 1 :=
      ⟨fuel - 1, by have := elemsFuel_pos x xs; omega⟩
    cases xs with
    | nil =>
        have hfx : jfuel x ≤ g := by
          have he : elemsFuel x [] = 1 + jfuel x := by simp [elemsFuel]
          omega
        have hv : parseValue g (jdump x ++ ']' :: rest) = some (x, ']' :: rest) :=
          (ih g (Nat.lt_succ_self g)).1 x (']' :: rest) hfx
            (fun c hc => by simp at hc; subst hc; decide)
        exact pe_last g _ x (']' :: rest) rest hv
          (skipWs_cons_not_ws rest (by decide))
    | cons y t =>
        have hmax : max (jfuel x) (elemsFuel y t) ≤ g := by
          have he : elemsFuel x (y :: t) = 1 + max (jfuel x) (elemsFuel y t) := by
            simp [elemsFuel]
          omega
        have hfx : jfuel x ≤ g := le_trans (Nat.le_max_left _ _) hmax
        have hfy : elemsFuel y t ≤ g := le_trans (Nat.le_max_right _ _) hmax
        have hsplit : jdumpArr (x :: y :: t) ++ ']' :: rest =
            jdump x ++ (',' :: ' ' :: (jdumpArr (y :: t) ++ ']' :: rest)) := by
          show (jdump x ++ ',' :: ' ' :: jdumpArr (y :: t)) ++ ']' :: rest = _
          simp
        rw [hsplit]
        have hv := (ih g (Nat.lt_succ_self g)).1 x
          (',' :: ' ' :: (jdumpArr (y :: t) ++ ']' :: rest)) hfx
          (fun c hc => by simp at hc; subst hc; decide)
        obtain ⟨c2, s2, hs2, hws2, _, _⟩ := jdumpArr_cons y t (']' :: rest)
        have hp : parseElems g
            (skipWs (' ' :: (jdumpArr (y :: t) ++ ']' :: rest))) =
            some (y :: t, rest) := by
          rw [skipWs_space, hs2, skipWs_cons_not_ws s2 hws2, ← hs2]
          exact (ih g (Nat.lt_succ_self g)).2.1 y t rest hfy hrest
        exact pe_cons g _ x _ _ (y :: t) rest hv
          (skipWs_cons_not_ws _ (by decide)) hp
  · intro f0 fs rest hfuel hrest
    obtain ⟨g, rfl⟩ : ∃ g, fuel = g + 1 :=
      ⟨fuel - 1, by have := fieldsFuel_pos f0 fs; omega⟩
    obtain ⟨k, v⟩ := f0
    cases fs with
    | nil =>
        have hfv : jfuel v ≤ g := by
          have he : fieldsFuel (k, v) [] = 1 + jfuel v := by simp [fieldsFuel]
          omega
        have hsplit : jdumpObj [(k, v)] ++ rbraceChar :: rest =
            quoteChar :: (escString k ++ quoteChar ::
              (':' :: ' ' :: (jdump v ++ rbraceChar :: rest))) := by
          show (quoteChar :: escString k ++ quoteChar :: ':' :: ' ' :: jdump v) ++
            rbraceChar :: rest = _
          simp
        rw [hsplit]
        obtain ⟨c2, t2, hv2, hws2, _, _, _⟩ := jdump_head v
        have hv := (ih g (Nat.lt_succ_self g)).1 v (rbraceChar :: rest) hfv
          (fun c hc => by simp at hc; subst hc; decide)
        apply pf_last g _ k (':' :: ' ' :: (jdump v ++ rbraceChar :: rest))
          (' ' :: (jdump v ++ rbraceChar :: rest)) v (rbraceChar :: rest) rest
        · exact parseStrBody_round k _ _ (by
            have := escString_length_ge k
            simp only [List.length_append, List.length_cons]
            omega)
        · exact skipWs_cons_not_ws _ (by decide)
        · rw [skipWs_space, hv2, List.cons_append,
            skipWs_cons_not_ws (t2 ++ rbraceChar :: rest) hws2,
            ← List.cons_append, ← hv2]
          exact hv
        · exact skipWs_cons_not_ws rest (by decide)
    | cons g0 t =>
        have hmax : max (jfuel v) (fieldsFuel g0 t) ≤ g := by
          have he : fieldsFuel (k, v) (g0 :: t) =
              1 + max (jfuel v) (fieldsFuel g0 t) := by simp [fieldsFuel]
          omega
        have hfv : jfuel v ≤ g := le_trans (Nat.le_max_left _ _) hmax
        have hfg : fieldsFuel g0 t ≤ g := le_trans (Nat.le_max_right _ _) hmax
        have hsplit : jdumpObj ((k, v) :: g0 :: t) ++ rbraceChar :: rest =
            quoteChar :: (escString k ++ quoteChar ::
              (':' :: ' ' :: (jdump v ++
                (',' :: ' ' :: (jdumpObj (g0 :: t) ++ rbraceChar :: rest))))) := by
          show (quoteChar :: escString k ++ quoteChar :: ':' :: ' ' :: jdump v ++
            ',' :: ' ' :: jdumpObj (g0 :: t)) ++ rbraceChar :: rest = _
          simp
        rw [hsplit]
        obtain ⟨c2, t2, hv2, hws2, _, _, _⟩ := jdump_head v
        have hv := (ih g (Nat.lt_succ_self g)).1 v
          (',' :: ' ' :: (jdumpObj (g0 :: t) ++ rbraceChar :: rest)) hfv
          (fun c hc => by simp at hc; subst hc; decide)
        obtain ⟨s3, hs3⟩ := jdumpObj_cons g0 t (rbraceChar :: rest)
        have hp : parseFields g
            (skipWs (' ' :: (jdumpObj (g0 :: t) ++ rbraceChar :: rest))) =
            some (g0 :: t, rest) := by
          rw [skipWs_space, hs3, skipWs_cons_not_ws s3 (by decide), ← hs3]
          exact (ih g (Nat.lt_succ_self g)).2.2 g0 t rest hfg hrest
        apply pf_cons g _ k
          (':' :: ' ' :: (jdump v ++
            (',' :: ' ' :: (jdumpObj (g0 :: t) ++ rbraceChar :: rest))))
          (' ' :: (jdump v ++ (',' :: ' ' ::
            (jdumpObj (g0 :: t) ++ rbraceChar :: rest))))
          v
          (',' :: ' ' :: (jdumpObj (g0 :: t) ++ rbraceChar :: rest))
          (' ' :: (jdumpObj (g0 :: t) ++ rbraceChar :: rest))
          (g0 :: t) rest
        · exact parseStrBody_round k _ _ (by
            have := escString_length_ge k
            simp only [List.length_append, List.length_cons]
            omega)
        · exact skipWs_cons_not_ws _ (by decide)
        · rw [skipWs_space, hv2, List.cons_append,
            skipWs_cons_not_ws _ hws2, ← List.cons_append, ← hv2]
          exact hv
        · exact skipWs_cons_not_ws _ (by decide)
        · exact hp

theorem jfuel_le_all : ∀ (N : Nat),
    (∀ v : JValue, sizeOf v ≤ N → jfuel v ≤ (jdump v).length)
  ∧ (∀ (x : JValue) (xs : List JValue), sizeOf x + sizeOf xs ≤ N →
      elemsFuel x xs ≤ (jdumpArr (x :: xs)).length + 1)
  ∧ (∀ (f0 : List Char × JValue) (fs : List (List Char × JValue)),
      sizeOf f0 + sizeOf fs ≤ N →
      fieldsFuel f0 fs ≤ (jdumpObj (f0 :: fs)).length + 1) := by
  intro N
  induction N using Nat.strong_induction_on with
  | _ N ih =>
  refine ⟨?_, ?_, ?_⟩
  · intro v hs
    cases v with
    | jnull => simp [jfuel, jdump]
    | jbool b => cases b <;> simp [jfuel, jdump]
    | jint n =>
        have h1 : natChars n.toNat ≠ [] := natChars_ne_nil _
        have h2 : 1 ≤ (natChars n.toNat).length := List.length_pos.mpr h1
        show jfuel (.jint n) ≤ (intChars n).length
        unfold intChars
        split <;> simp [jfuel] <;> omega
    | jstr s =>
        show jfuel (.jstr s) ≤ (quoteChar :: escString s ++ [quoteChar]).length
        simp [jfuel]
    | jarr xs =>
        cases xs with
        | nil => simp [jfuel, jdump, jdumpArr]
        | cons x xs' =>
            have hsz : sizeOf (JValue.jarr (x :: xs')) =
                1 + (1 + sizeOf x + sizeOf xs') := by simp
            have hm : sizeOf x + sizeOf xs' < N := by omega
            have hb := (ih _ hm).2.1 x xs' le_rfl
            have hj : jfuel (.jarr (x :: xs')) = 1 + elemsFuel x xs' := by simp [jfuel]
            have hl : (jdump (.jarr (x :: xs'))).length =
                (jdumpArr (x :: xs')).length + 2 := by
              show ('[' :: jdumpArr (x :: xs') ++ [']']).length = _
              simp
            omega
    | jobj fs =>
        cases fs with
        | nil => simp [jfuel, jdump, jdumpObj]
        | cons f0 fs' =>
            have hsz : sizeOf (JValue.jobj (f0 :: fs')) =
                1 + (1 + sizeOf f0 + sizeOf fs') := by simp
            have hm : sizeOf f0 + sizeOf fs' < N := by omega
            have hb := (ih _ hm).2.2 f0 fs' le_rfl
            have hj : jfuel (.jobj (f0 :: fs')) = 1 + fieldsFuel f0 fs' := by
              simp [jfuel]
            have hl : (jdump (.jobj (f0 :: fs'))).length =
                (jdumpObj (f0 :: fs')).length + 2 := by
              show (lbraceChar :: jdumpObj (f0 :: fs') ++ [rbraceChar]).length = _
              simp
            omega
  · intro x xs hs
    cases xs with
    | nil =>
        have hm : sizeOf x < N := by
          have : sizeOf ([] : List JValue) = 1 := by simp
          omega
        have hb := (ih _ hm).1 x le_rfl
        have he : elemsFuel x [] = 1 + jfuel x := by simp [elemsFuel]
        have hl : (jdumpArr [x]).length = (jdump x).length := rfl
        omega
    | cons y t =>
        have hszy : sizeOf (y :: t) = 1 + sizeOf y + sizeOf t := by simp
        have hmx : sizeOf x < N := by omega
        have hmy : sizeOf y + sizeOf t < N := by omega
        have hbx := (ih _ hmx).1 x le_rfl
        have hby := (ih _ hmy).2.1 y t le_rfl
        have he : elemsFuel x (y :: t) = 1 + max (jfuel x) (elemsFuel y t) := by
          simp [elemsFuel]
        have hl : (jdumpArr (x :: y :: t)).length =
            (jdump x).length + 2 + (jdumpArr (y :: t)).length := by
          show (jdump x ++ ',' :: ' ' :: jdumpArr (y :: t)).length = _
          simp
          omega
        have hmax : max (jfuel x) (elemsFuel y t) ≤
            (jdump x).length + (jdumpArr (y :: t)).length + 1 :=
          Nat.max_le.mpr ⟨by omega, by omega⟩
        omega
  · intro f0 fs hs
    obtain ⟨k, v⟩ := f0
    cases fs with
    | nil =>
        have hszf : sizeOf ((k, v) : List Char × JValue) =
            1 + sizeOf k + sizeOf v := by simp
        have hm : sizeOf v < N := by
          have : sizeOf ([] : List (List Char × JValue)) = 1 := by simp
          omega
        have hb := (ih _ hm).1 v le_rfl
        have he : fieldsFuel (k, v) [] = 1 + jfuel v := by simp [fieldsFuel]
        have hl : (jdumpObj [(k, v)]).length =
            (escString k).length + 4 + (jdump v).length := by
          show (quoteChar :: escString k ++ quoteChar :: ':' :: ' ' ::
            jdump v).length = _
          simp
          omega
        omega
    | cons g0 t =>
        have hszf : sizeOf ((k, v) : List Char × JValue) =
            1 + sizeOf k + sizeOf v := by simp
        have hszg : sizeOf (g0 :: t) = 1 + sizeOf g0 + sizeOf t := by simp
        have hmv : sizeOf v < N := by omega
        have hmg : sizeOf g0 + sizeOf t < N := by omega
        have hbv := (ih _ hmv).1 v le_rfl
        have hbg := (ih _ hmg).2.2 g0 t le_rfl
        have he : fieldsFuel (k, v) (g0 :: t) =
            1 + max (jfuel v) (fieldsFuel g0 t) := by simp [fieldsFuel]
        have hl : (jdumpObj ((k, v) :: g0 :: t)).length =
            (escString k).length + 6 + (jdump v).length +
              (jdumpObj (g0 :: t)).length := by
          show (quoteChar :: escString k ++ quoteChar :: ':' :: ' ' :: jdump v ++
            ',' :: ' ' :: jdumpObj (g0 :: t)).length = _
          simp
          omega
        have hmax : max (jfuel v) (fieldsFuel g0 t) ≤
            (jdump v).length + (jdumpObj (g0 :: t)).length + 1 :=
          Nat.max_le.mpr ⟨by omega, by omega⟩
        omega

/-- The round trip at the heart of C8: parsing back a dumped value returns
exactly the value (`json.loads(json.dumps(state)) == state`). -/
theorem json_loads_dumps (v : JValue) : json_loads (json_dumps v) = some v := by
  unfold json_loads json_dumps
  obtain ⟨c, t, hc, hws, _, _, _⟩ := jdump_head v
  have hskip : skipWs (jdump v) = jdump v := by
    rw [hc]
    exact skipWs_cons_not_ws t hws
  rw [hskip]
  have hparse : parseValue ((jdump v).length + 1) (jdump v ++ []) = some (v, []) :=
    (parse_round_all _).1 v []
      (by have := (jfuel_le_all (sizeOf v)).1 v le_rfl; omega)
      (fun c hc => by simp at hc)
  rw [List.append_nil] at hparse
  rw [hparse]
  simp [skipWs]

/-- One row of the `device_states` table (persistence.py lines 56-68;
`device_id` is the primary key and lives in the table's key position). -/
structure DeviceRow where
  device_type : List Char
  name : List Char
  manufacturer : List Char
  model : List Char
  sw_version : List Char
  state_json : List Char
  last_update : Int
  online : Bool

/-- The per-device dict returned by `load_all_device_states`. -/
structure LoadedDevice where
  device_type : List Char
  name : List Char
  manufacturer : List Char
  model : List Char
  sw_version : List Char
  state : JValue
  last_update : Int
  online : Bool

/-- `INSERT ... ON CONFLICT(device_id) DO UPDATE`: an existing row keeps
its rowid (position), a new device id is appended. -/
def upsertRow (k : List Char) (r : DeviceRow) :
    List (List Char × DeviceRow) → List (List Char × DeviceRow)
  | [] => [(k, r)]
  | p :: t => if p.1 = k then (k, r) :: t else p :: upsertRow k r t

def rowGet {α : Type} : List Char → List (List Char × α) → Option α
  | _, [] => none
  | k, p :: t => if p.1 = k then some p.2 else rowGet k t

/-- `StatePersistence.save_device_state` (persistence.py lines 109-154):
serialize the state dict with `json.dumps` and upsert the row (the
`time.time()` stamp is the `now` argument). -/
def save_device_state (table : List (List Char × DeviceRow)) (device_id : List Char)
    (device_type : List Char) (name : List Char) (state : JValue)
    (manufacturer : List Char) (model : List Char) (sw_version : List Char)
    (online : Bool) (now : Int) : List (List Char × DeviceRow) :=
  upsertRow device_id
    ⟨device_type, name, manufacturer, model, sw_version, json_dumps state, now, online⟩
    table

/-- `StatePersistence.load_all_device_states` (persistence.py lines
183-211): `SELECT *` in rowid order, `json.loads(state_json)` per row; a
row whose stored JSON did not parse would raise in Python, modelled as
`none` for the whole call. -/
def load_all_device_states :
    List (List Char × DeviceRow) → Option (List (List Char × LoadedDevice))
  | [] => some []
  | p :: t =>
    match json_loads p.2.state_json with
    | none => none
    | some st =>
      match load_all_device_states t with
      | none => none
      | some l =>
          some ((p.1, ⟨p.2.device_type, p.2.name, p.2.manufacturer, p.2.model,
            p.2.sw_version, st, p.2.last_update, p.2.online⟩) :: l)

/-- C8: saving a device state and reloading all states from the same
database (the table value is the durable store, so reading it again after
a simulated restart is reading the same value) yields, for that
device_id, exactly the saved state value — with the modelled
serialization, `json.loads` of the stored `state_json` is byte-for-byte
the dumped input, so every attribute value round-trips identically.  The
hypothesis says every other stored row parses, which holds for any table
whose rows were written by `save_device_state`. -/
theorem C8_theorem (table : List (List Char × DeviceRow)) (device_id : List Char)
    (device_type : List Char) (name : List Char) (state : JValue)
    (manufacturer : List Char) (model : List Char) (sw_version : List Char)
    (online : Bool) (now : Int)
    (hwf : ∀ p ∈ table, (json_loads p.2.state_json).isSome = true) :
    (load_all_device_states (save_device_state table device_id device_type name
        state manufacturer model sw_version online now)).map
        (fun l => rowGet device_id l) =
      some (some ⟨device_type, name, manufacturer, model, sw_version, state,
        now, online⟩) := by
  induction table with
  | nil =>
      simp only [save_device_state, upsertRow, load_all_device_states,
        json_loads_dumps state]
      simp [rowGet]
  | cons p t ih =>
      by_cases hp : p.1 = device_id
      · simp only [save_device_state, upsertRow, if_pos hp,
          load_all_device_states, json_loads_dumps state]
        obtain ⟨l, hl⟩ : ∃ l, load_all_device_states t = some l := by
          have : ∀ q ∈ t, (json_loads q.2.state_json).isSome = true :=
            fun q hq => hwf q (List.mem_cons_of_mem p hq)
          clear ih hwf hp
          induction t with
          | nil => exact ⟨[], rfl⟩
          | cons q t2 ih2 =>
              obtain ⟨st, hst⟩ := Option.isSome_iff_exists.mp
                (this q (List.mem_cons_self q t2))
              obtain ⟨l2, hl2⟩ := ih2
                (fun q2 hq2 => this q2 (List.mem_cons_of_mem q hq2))
              refine ⟨(q.1, ⟨q.2.device_type, q.2.name, q.2.manufacturer, q.2.model,
                q.2.sw_version, st, q.2.last_update, q.2.online⟩) :: l2, ?_⟩
              simp only [load_all_device_states, hst, hl2]
        rw [hl]
        simp [rowGet]
      · obtain ⟨st, hst⟩ := Option.isSome_iff_exists.mp
          (hwf p (List.mem_cons_self p t))
        have iht := ih (fun q hq => hwf q (List.mem_cons_of_mem p hq))
        simp only [save_device_state, upsertRow, if_neg hp,
          load_all_device_states, hst]
        simp only [save_device_state] at iht
        obtain ⟨l, hl⟩ : ∃ l, load_all_device_states
            (upsertRow device_id ⟨device_type, name, manufacturer, model,
              sw_version, json_dumps state, now, online⟩ t) = some l := by
          cases hcase : load_all_device_states
              (upsertRow device_id ⟨device_type, name, manufacturer, model,
                sw_version, json_dumps state, now, online⟩ t) with
          | none => rw [hcase] at iht; cases iht
          | some l => exact ⟨l, rfl⟩
        rw [hl]
        rw [hl] at iht
        simp only [Option.map_some, Option.some.injEq] at iht ⊢
        simpa [rowGet, hp] using iht

/-- C8, witness: a concrete save/reload round trip on an empty table. -/
theorem C8_witness :
    (load_all_device_states (save_device_state [] ['m', '1'] ['g'] ['n']
        (JValue.jobj [(['E'], JValue.jint 5)]) ['u'] ['u'] [] true 42)).map
        (fun l => rowGet ['m', '1'] l) =
      some (some ⟨['g'], ['n'], ['u'], ['u'], [],
        JValue.jobj [(['E'], JValue.jint 5)], 42, true⟩) :=
  C8_theorem [] ['m', '1'] ['g'] ['n'] (JValue.jobj [(['E'], JValue.jint 5)])
    ['u'] ['u'] [] true 42 (by simp)
